import Mathlib

/-!
A verification development for the CAKE ("Common Applications Kept Enhanced")
packet-scheduler engine of sch_cake.c.

The embedding below is a shallow model of the engine state and of the
operations that the verified properties concern: cake_overhead, cake_set_rate,
cake_enqueue (non-GSO path), cake_drop, custom_dequeue, cake_clear_tin,
cake_reset, the tin-selection crediting step and the shaper charging step of
cake_dequeue, the cake_config_* functions, cake_reconfigure and cake_change.

Modelling conventions:
* machine integers are Nat (unsigned) or Int (signed) with explicit reduction
  mod 2^16 / 2^32 / 2^64 wherever C arithmetic can wrap;
* sk_buff queues are Lean lists; the intrusive flowchain list nodes are
  modelled by per-tin lists of flow indices (new_flows / old_flows), and the
  C test list_empty(flowchain) becomes non-membership in both lists;
* external collaborators (flow dissection / jhash, GSO segmentation, the
  CoDel library of codel5.h, netlink parsing, the watchdog) are outside the
  model: a packet carries its dissected 32-bit flow hash and DSCP codepoint,
  and the GSO branch of cake_enqueue is not modelled (packets are single
  segments);
* cake_drop returns none when the selected flow has no packet (the C code
  would dereference a null pointer there), and the overlimit drop loop of
  cake_enqueue is fuelled by the current queue length, so cake_enqueue
  returns an Option state.
-/

namespace Bcake

/-! ## Machine arithmetic -/

def M16 : Nat := 2 ^ 16
def M32 : Nat := 2 ^ 32
def M64 : Nat := 2 ^ 64

/-- u32 addition, wrapping mod 2^32. -/
def add32 (a b : Nat) : Nat := (a + b) % M32

/-- u32 subtraction with two's-complement wraparound (a is a u32 value). -/
def sub32 (a b : Nat) : Nat := (a + M32 - b % M32) % M32

/-- u64 addition, wrapping mod 2^64. -/
def add64 (a b : Nat) : Nat := (a + b) % M64

/-- Truncation of a signed value to the signed 16-bit range, as happens when a
32-bit netlink attribute is stored into the s16 field rate_overhead. -/
def toS16 (x : Int) : Int := (x + 2 ^ 15) % 2 ^ 16 - 2 ^ 15

/-- Reinterpretation of a signed value as a u32, as happens when an s32
netlink attribute is stored into the u32 field buffer_config_limit. -/
def toU32 (x : Int) : Nat := (x % (M32 : Int)).toNat

def NSEC_PER_SEC : Nat := 1000000000

/-! ## List helpers

setNth v i l replaces element i of l with v (a no-op when i is out of
range), mirroring an in-place array store. -/

def setNth (v : α) : Nat → List α → List α
  | _, [] => []
  | 0, _ :: xs => v :: xs
  | n + 1, x :: xs => x :: setNth v n xs

/-! ## Data model (sch_cake.c structures) -/

/-- The fields of an sk_buff that the engine reads: the qdisc packet length,
the memory-accounting truesize, the Diffserv codepoint extracted by
cake_handle_diffserv, and the 32-bit flow hash produced by the external
flow dissector (the input of reciprocal_scale in cake_hash). -/
structure Packet where
  len : Nat
  truesize : Nat
  dscp : Nat
  hash : Nat
  deriving DecidableEq, Inhabited, Repr

/-- struct cake_flow.  The head/tail sk_buff chain is a list; the intrusive
flowchain node lives in the owning tin's new_flows/old_flows index lists.
The CoDel state (cvars) belongs to the external CoDel library and is not
modelled. -/
structure cake_flow where
  queue : List Packet
  deficit : Int
  dropped : Nat
  deriving DecidableEq, Inhabited, Repr

/-- struct cake_tin_data.  new_flows and old_flows hold indices into the
flows table. -/
structure cake_tin_data where
  flows : List cake_flow
  backlogs : List Nat
  flows_cnt : Nat
  quantum : Nat
  bulk_flow_count : Nat
  drop_overlimit : Nat
  new_flows : List Nat
  old_flows : List Nat
  tin_time_next_packet : Nat
  tin_rate_ns : Nat
  tin_rate_bps : Nat
  tin_rate_shft : Nat
  tin_quantum_prio : Nat
  tin_quantum_band : Nat
  tin_deficit : Int
  tin_backlog : Nat
  tin_dropped : Nat
  tin_ecn_mark : Nat
  packets : Nat
  bytes : Nat
  deriving DecidableEq, Inhabited, Repr

/-- struct cake_sched_data together with the fields of the surrounding Qdisc
that the engine updates (sch->q.qlen, sch->qstats.backlog, sch->qstats.drops,
sch->qstats.overlimits, sch->limit). -/
structure cake_sched_data where
  tins : List cake_tin_data
  tin_cnt : Nat
  tin_mode : Nat
  flow_mode : Nat
  rate_shft : Nat
  time_next_packet : Nat
  rate_ns : Nat
  rate_bps : Nat
  rate_flags : Nat
  rate_overhead : Int
  interval : Nat
  target : Nat
  buffer_used : Nat
  buffer_limit : Nat
  buffer_config_limit : Nat
  cur_tin : Nat
  cur_flow : Nat
  tin_index : List Nat
  limit : Nat
  qlen : Nat
  qstats_backlog : Nat
  qstats_drops : Nat
  qstats_overlimits : Nat
  deriving DecidableEq, Inhabited, Repr

def CAKE_MODE_BESTEFFORT : Nat := 1
def CAKE_MODE_PRECEDENCE : Nat := 2
def CAKE_MODE_DIFFSERV8 : Nat := 3
def CAKE_MODE_DIFFSERV4 : Nat := 4
def CAKE_FLAG_ATM : Nat := 0x0001
def CAKE_FLAG_AUTORATE_INGRESS : Nat := 0x0010
def CAKE_FLAG_WASH : Nat := 0x0100
def CAKE_FLOW_NONE : Nat := 0

/-! ## Derived byte/packet totals (specification-side measures) -/

def flowBytes (f : cake_flow) : Nat := (f.queue.map Packet.len).sum
def flowTrue (f : cake_flow) : Nat := (f.queue.map Packet.truesize).sum
def flowCount (f : cake_flow) : Nat := f.queue.length
def tinBytes (b : cake_tin_data) : Nat := (b.flows.map flowBytes).sum
def tinTrue (b : cake_tin_data) : Nat := (b.flows.map flowTrue).sum
def tinCount (b : cake_tin_data) : Nat := (b.flows.map flowCount).sum
def totalBytes (s : cake_sched_data) : Nat := (s.tins.map tinBytes).sum
def totalTrue (s : cake_sched_data) : Nat := (s.tins.map tinTrue).sum
def totalCount (s : cake_sched_data) : Nat := (s.tins.map tinCount).sum

/-- Flow at tin t, index i (array reads with an all-zero default). -/
def flowAt (s : cake_sched_data) (t i : Nat) : cake_flow :=
  (s.tins.getD t default).flows.getD i default

/-- Per-flow backlog counter at tin t, index i. -/
def backlogAt (s : cake_sched_data) (t i : Nat) : Nat :=
  (s.tins.getD t default).backlogs.getD i 0

/-! ## cake_overhead (framing overhead and ATM cell tax) -/

/-- cake_overhead: u32 out = in + q->rate_overhead; if ATM then
out += 47; out /= 48; out *= 53 (all in u32 arithmetic). -/
def cake_overhead (s : cake_sched_data) (len : Nat) : Nat :=
  let out : Nat := (((len : Int) + s.rate_overhead) % (M32 : Int)).toNat
  if s.rate_flags &&& CAKE_FLAG_ATM ≠ 0 then
    ((out + 47) % M32) / 48 * 53 % M32
  else out

/-! ## cake_hash -/

/-- cake_hash reduced to the parts inside this module: mode CAKE_FLOW_NONE
returns 0, otherwise the externally computed 32-bit flow hash is reduced to
the range of the tin's flow table by reciprocal_scale, i.e.
(hash * flows_cnt) >> 32. -/
def cake_hash (b : cake_tin_data) (p : Packet) (flow_mode : Nat) : Nat :=
  if flow_mode = CAKE_FLOW_NONE then 0
  else p.hash * b.flows_cnt / M32

/-- Tin chosen by cake_enqueue: the Diffserv codepoint is looked up in
tin_index unless the scheduler is in besteffort mode, and an entry at or
beyond tin_cnt is clamped to 0. -/
def enqTin (s : cake_sched_data) (p : Packet) : Nat :=
  if s.tin_mode ≠ CAKE_MODE_BESTEFFORT then
    let t := s.tin_index.getD p.dscp 0
    if s.tin_cnt ≤ t then 0 else t
  else 0

/-- Flow index chosen by cake_enqueue (cake_hash on the chosen tin). -/
def enqIdx (s : cake_sched_data) (p : Packet) : Nat :=
  cake_hash (s.tins.getD (enqTin s p) default) p s.flow_mode

/-! ## cake_drop -/

/-- One comparison step of the fattest-flow search of cake_drop:
if (b->backlogs[i] > maxbacklog) record (backlog, i, j). -/
def scanStep (bl : Nat → Nat) (j : Nat) (acc : Nat × Nat × Nat) (i : Nat) :
    Nat × Nat × Nat :=
  if acc.1 < bl i then (bl i, i, j) else acc

/-- The scan of tin j: its old_flows list first, then its new_flows list,
exactly as the two list_for_each_entry loops of cake_drop. -/
def tinScan (b : cake_tin_data) (j : Nat) (acc : Nat × Nat × Nat) :
    Nat × Nat × Nat :=
  b.new_flows.foldl (scanStep (fun i => b.backlogs.getD i 0) j)
    (b.old_flows.foldl (scanStep (fun i => b.backlogs.getD i 0) j) acc)

/-- The full fattest-flow search across tins 0 .. tin_cnt-1, starting from
maxbacklog = 0, idx = 0, tin = 0.  Result is (maxbacklog, idx, tin). -/
def dropScan (s : cake_sched_data) : Nat × Nat × Nat :=
  (List.range s.tin_cnt).foldl
    (fun acc j => tinScan (s.tins.getD j default) j acc) (0, 0, 0)

/-- The state produced by cake_drop when it removes head packet p (leaving
rest) from the flow selected by dropScan. -/
def dropResult (s : cake_sched_data) (p : Packet) (rest : List Packet) :
    cake_sched_data :=
  let tin := (dropScan s).2.2
  let idx := (dropScan s).2.1
  let b := s.tins.getD tin default
  { s with
    tins := setNth
      { b with
        flows := setNth
          { b.flows.getD idx default with
            queue := rest
            dropped := add32 (b.flows.getD idx default).dropped 1 }
          idx b.flows
        backlogs := setNth (sub32 (b.backlogs.getD idx 0) p.len) idx
          b.backlogs
        tin_backlog := sub32 b.tin_backlog p.len
        tin_dropped := add32 b.tin_dropped 1 } tin s.tins
    buffer_used := sub32 s.buffer_used p.truesize
    qstats_backlog := sub32 s.qstats_backlog p.len
    qstats_drops := add32 s.qstats_drops 1
    qlen := sub32 s.qlen 1 }

/-- cake_drop: find the fattest flow, head-drop one packet from it and update
all the accounting.  Returns none when the selected flow is empty (the C code
would dereference a null skb there; under the well-formedness invariant this
cannot happen while the buffer is over its limit).  The returned Nat is
idx + (tin << 16). -/
def cake_drop (s : cake_sched_data) : Option (cake_sched_data × Nat) :=
  let tin := (dropScan s).2.2
  let idx := (dropScan s).2.1
  let b := s.tins.getD tin default
  match (b.flows.getD idx default).queue with
  | [] => none
  | p :: rest => some (dropResult s p rest, idx + (tin <<< 16))

/-! ## cake_enqueue (non-GSO path) -/

/-- The stale-shaper refresh at the top of cake_enqueue: if the chosen tin
has no backlog, pull its tin_time_next_packet forward to now, and if the
whole qdisc is empty pull the global time_next_packet forward to now. -/
def cake_enqueue_touch (s : cake_sched_data) (now t : Nat) : cake_sched_data :=
  let b := s.tins.getD t default
  if b.tin_backlog = 0 then
    { s with
      tins := setNth
        (if b.tin_time_next_packet < now
         then { b with tin_time_next_packet := now } else b) t s.tins
      time_next_packet :=
        if s.qlen = 0 ∧ s.time_next_packet < now then now
        else s.time_next_packet }
  else s

/-- The per-tin part of the packet insertion: flow_queue_add, the statistics
updates, and the flowchain step (if the flow is on neither list, append it to
the tail of new_flows and give it a fresh deficit of one tin quantum). -/
def tin_insert (b : cake_tin_data) (p : Packet) (i : Nat) : cake_tin_data :=
  let f := b.flows.getD i default
  let b2 := { b with
    flows := setNth { f with queue := f.queue ++ [p] } i b.flows
    packets := add32 b.packets 1
    bytes := add64 b.bytes p.len
    backlogs := setNth (add32 (b.backlogs.getD i 0) p.len) i b.backlogs
    tin_backlog := add32 b.tin_backlog p.len }
  if i ∈ b.new_flows ∨ i ∈ b.old_flows then b2
  else { b2 with
    new_flows := b2.new_flows ++ [i]
    flows := setNth
      { b2.flows.getD i default with
        deficit := (b2.quantum : Int), dropped := 0 } i b2.flows }

/-- Scheduler-level part of the packet insertion. -/
def cake_enqueue_insert (s : cake_sched_data) (p : Packet) (t i : Nat) :
    cake_sched_data :=
  { s with
    tins := setNth (tin_insert (s.tins.getD t default) p i) t s.tins
    qlen := add32 s.qlen 1
    qstats_backlog := add32 s.qstats_backlog p.len
    buffer_used := add32 s.buffer_used p.truesize }

/-- The while (buffer_used > buffer_limit) cake_drop loop, fuelled.  Returns
the resulting state and the number of packets dropped. -/
def dropLoop : Nat → cake_sched_data → Option (cake_sched_data × Nat)
  | fuel, s =>
    if s.buffer_used ≤ s.buffer_limit then some (s, 0)
    else
      match fuel with
      | 0 => none
      | fuel + 1 =>
        (cake_drop s).bind fun r =>
          (dropLoop fuel r.1).map fun r2 => (r2.1, r2.2 + 1)

/-- cake_enqueue, non-GSO path: classify, hash, refresh stale shaper state,
insert the packet with all accounting, activate the flow if detached, then
drop from the fattest flows while the buffer is over its limit and charge
drop_overlimit of the enqueue tin. -/
def cake_enqueue (s : cake_sched_data) (p : Packet) (now : Nat) :
    Option cake_sched_data :=
  let t := enqTin s p
  let i := enqIdx s p
  let s2 := cake_enqueue_insert (cake_enqueue_touch s now t) p t i
  (dropLoop s2.qlen s2).map fun r =>
    { r.1 with
      tins := setNth
        { r.1.tins.getD t default with
          drop_overlimit :=
            add32 (r.1.tins.getD t default).drop_overlimit r.2 } t r.1.tins }

/-! ## custom_dequeue, cake_clear_tin, cake_reset -/

/-- custom_dequeue: pop the head packet of the flow at the cursor
(cur_tin, cur_flow), updating backlogs, tin_backlog, buffer_used and qlen.
The caller (the CoDel library, per the comment above custom_dequeue in the
source) is responsible for sch->qstats.backlog. -/
def dequeueResult (s : cake_sched_data) (p : Packet) (rest : List Packet) :
    cake_sched_data :=
  let b := s.tins.getD s.cur_tin default
  { s with
    tins := setNth
      { b with
        flows := setNth { b.flows.getD s.cur_flow default with queue := rest }
          s.cur_flow b.flows
        backlogs := setNth (sub32 (b.backlogs.getD s.cur_flow 0) p.len)
          s.cur_flow b.backlogs
        tin_backlog := sub32 b.tin_backlog p.len } s.cur_tin s.tins
    buffer_used := sub32 s.buffer_used p.truesize
    qlen := sub32 s.qlen 1 }

def custom_dequeue (s : cake_sched_data) : Option Packet × cake_sched_data :=
  match ((s.tins.getD s.cur_tin default).flows.getD s.cur_flow default).queue with
  | [] => (none, s)
  | p :: rest => (some p, dequeueResult s p rest)

/-- A dequeue of one packet as observed at the qdisc boundary: custom_dequeue
plus the sch->qstats.backlog decrement that the source notes is "already
handled" by its caller (codel_dequeue, external CoDel library). -/
def cake_dequeue_one (s : cake_sched_data) : Option Packet × cake_sched_data :=
  match custom_dequeue s with
  | (some p, s2) =>
    (some p, { s2 with qstats_backlog := sub32 s2.qstats_backlog p.len })
  | (none, s2) => (none, s2)

/-- n iterations of the while (custom_dequeue(NULL, sch)) ; loop. -/
def drainLoopN : Nat → cake_sched_data → cake_sched_data
  | 0, s => s
  | n + 1, s =>
    match custom_dequeue s with
    | (some _, s2) => drainLoopN n s2
    | (none, s2) => s2

/-- Drain the flow at the cursor completely (the while loop runs once per
queued packet and then stops on the none result, which leaves the state
unchanged, so running it queue-length many times is the same final state). -/
def drainFlow (s : cake_sched_data) : cake_sched_data :=
  drainLoopN
    (((s.tins.getD s.cur_tin default).flows.getD s.cur_flow default).queue.length)
    s

/-- The cur_flow loop of cake_clear_tin for flows 0..n-1. -/
def clearFlows (s : cake_sched_data) : Nat → cake_sched_data
  | 0 => s
  | n + 1 => drainFlow { clearFlows s n with cur_flow := n }

/-- cake_clear_tin: set the tin cursor and drain every flow of that tin via
custom_dequeue; the flow cursor is left at flows_cnt on exit. -/
def cake_clear_tin (s : cake_sched_data) (tin : Nat) : cake_sched_data :=
  let s1 : cake_sched_data := { s with cur_tin := tin }
  let fc := (s1.tins.getD tin default).flows_cnt
  { clearFlows s1 fc with cur_flow := fc }

/-- cake_clear_tin applied to tins 0..n-1 in order. -/
def resetTins (s : cake_sched_data) : Nat → cake_sched_data
  | 0 => s
  | n + 1 => cake_clear_tin (resetTins s n) n

/-- cake_reset: clear all CAKE_MAX_TINS = 8 tins. -/
def cake_reset (s : cake_sched_data) : cake_sched_data := resetTins s 8

/-! ## Tin selection (the priority soft-shaper of cake_dequeue) -/

/-- The crediting applied to a tin as it is skipped by the tin-selection loop
of cake_dequeue: a tin with non-positive deficit is credited
tin_quantum_band when its tin_time_next_packet is in the future relative to
now, and tin_quantum_prio otherwise. -/
def cake_tin_credit (b : cake_tin_data) (now : Nat) : cake_tin_data :=
  if b.tin_deficit ≤ 0 then
    { b with
      tin_deficit := b.tin_deficit +
        (if now < b.tin_time_next_packet then (b.tin_quantum_band : Int)
         else (b.tin_quantum_prio : Int)) }
  else b

/-- One iteration of the tin-selection while loop body: credit the current
tin if its deficit is non-positive, then advance the tin cursor with
wraparound at tin_cnt. -/
def cake_tin_skip_step (s : cake_sched_data) (now : Nat) : cake_sched_data :=
  let s1 : cake_sched_data :=
    { s with
      tins := setNth (cake_tin_credit (s.tins.getD s.cur_tin default) now)
        s.cur_tin s.tins }
  let ct := s1.cur_tin + 1
  if s1.tin_cnt ≤ ct then { s1 with cur_tin := 0 } else { s1 with cur_tin := ct }

/-- The fuelled tin-selection loop: while the current tin has no backlog or
non-positive deficit, credit and advance. -/
def cake_select_tin : Nat → cake_sched_data → Nat → cake_sched_data
  | 0, s, _ => s
  | fuel + 1, s, now =>
    let b := s.tins.getD s.cur_tin default
    if b.tin_backlog = 0 ∨ b.tin_deficit ≤ 0 then
      cake_select_tin fuel (cake_tin_skip_step s now) now
    else s

/-! ## Shaper charging on packet emission (tail of cake_dequeue) -/

/-- Charge (len * tin_rate_ns) >> tin_rate_shft to the tin clocks of every
tin with index at most cur, walking the tin array (the for loop
for (i = cur_tin; i >= 0; i--, b--)).  The parameter k is the index of the
head of the remaining list. -/
def chargeTins (len cur : Nat) : List cake_tin_data → Nat → List cake_tin_data
  | [], _ => []
  | b :: bs, k =>
    (if k ≤ cur then
      { b with
        tin_time_next_packet :=
          add64 b.tin_time_next_packet ((len * b.tin_rate_ns) >>> b.tin_rate_shft) }
     else b) :: chargeTins len cur bs (k + 1)

/-- The accounting performed by cake_dequeue once a packet of effective
length len is emitted from the flow at the cursor: the flow deficit and the
tin deficit are reduced by len, the clocks of the current tin and of every
lower-indexed tin advance by the tin-local transmission time of len, and the
global shaper clock advances likewise. -/
def cake_charge (s : cake_sched_data) (len : Nat) : cake_sched_data :=
  let b := s.tins.getD s.cur_tin default
  let f := b.flows.getD s.cur_flow default
  let s1 : cake_sched_data :=
    { s with
      tins := setNth
        { b with
          flows := setNth { f with deficit := f.deficit - len } s.cur_flow b.flows
          tin_deficit := b.tin_deficit - len } s.cur_tin s.tins }
  { s1 with
    tins := chargeTins len s1.cur_tin s1.tins 0
    time_next_packet :=
      add64 s1.time_next_packet ((len * s1.rate_ns) >>> s1.rate_shft) }

/-! ## cake_set_rate -/

/-- The normalisation loop of cake_set_rate:
while (rate_ns >> 32) { rate_ns >>= 1; rate_shft--; }. -/
def rateNormalize (ns shft : Nat) : Nat × Nat :=
  if h : M32 ≤ ns then rateNormalize (ns / 2) (shft - 1) else (ns, shft)
termination_by ns
decreasing_by
  exact Nat.div_lt_self (by simp only [M32] at h; omega) (by omega)

/-- cake_set_rate: quantum defaults to 1514; with a non-zero rate the quantum
is clamp(rate >> 12, 300, 1514) and the ns-per-byte fixed-point rate starts
from ((NSEC_PER_SEC << 32) / max(64, rate), shift 32) and is normalised to
fit 32 bits. -/
def cake_set_rate (b : cake_tin_data) (rate : Nat) : cake_tin_data :=
  let quantum := if rate ≠ 0 then max (min (rate >>> 12) 1514) 300 else 1514
  let rn :=
    if rate ≠ 0 then rateNormalize ((NSEC_PER_SEC <<< 32) / max 64 rate) 32
    else (0, 0)
  { b with
    quantum := quantum
    tin_rate_bps := rate % M32
    tin_rate_ns := rn.1
    tin_rate_shft := rn.2 }

/-! ## Configuration (cake_config_*, cake_reconfigure, cake_change) -/

def cake_config_besteffort (s : cake_sched_data) : cake_sched_data :=
  let s1 : cake_sched_data :=
    { s with tin_cnt := 1, tin_index := List.replicate 64 0 }
  { s1 with
    tins := setNth
      { cake_set_rate (s1.tins.getD 0 default) s1.rate_bps with
        tin_quantum_band := 65535, tin_quantum_prio := 65535 } 0 s1.tins }

/-- The shared class-characteristics loop of the precedence and diffserv8
configurations: tin i gets the running rate and quanta, then
rate = rate * 7 / 8, quantum1 = quantum1 * 3 / 2, quantum2 = quantum2 * 7 / 8. -/
def cake_config_progression (s : cake_sched_data) : cake_sched_data :=
  ((List.range 8).foldl
    (fun (acc : cake_sched_data × Nat × Nat × Nat) i =>
      let s := acc.1
      let rate := acc.2.1
      let q1 := acc.2.2.1
      let q2 := acc.2.2.2
      let s1 : cake_sched_data :=
        { s with
          tins := setNth
            { cake_set_rate (s.tins.getD i default) rate with
              tin_quantum_prio := max 1 (q1 % M16)
              tin_quantum_band := max 1 (q2 % M16) } i s.tins }
      (s1, rate * 7 % M64 >>> 3, q1 * 3 % M32 >>> 1, q2 * 7 % M32 >>> 3))
    (s, s.rate_bps, 256, 256)).1

def cake_config_precedence (s : cake_sched_data) : cake_sched_data :=
  let s1 : cake_sched_data :=
    { s with
      tin_cnt := 8
      tin_index := (List.range 64).map fun i => min (i / 8) 8 }
  cake_config_progression s1

/-- The codepoint-to-class table of cake_config_diffserv8 (default 2, then
the explicit entries followed by the AF loop for i = 2, 4, 6). -/
def diffserv8_index : List Nat :=
  (List.range 3).foldl
    (fun ti k =>
      let i := 2 * (k + 1)
      setNth 3 (0x20 + i)
        (setNth 3 (0x18 + i) (setNth 4 (0x10 + i) (setNth 1 (0x08 + i) ti))))
    (setNth 7 0x38 (setNth 7 0x30 (setNth 6 0x2e (setNth 6 0x2c
      (setNth 6 0x28 (setNth 6 0x20 (setNth 5 0x10 (setNth 5 0x01
        (setNth 4 0x04 (setNth 3 0x18 (setNth 1 0x02 (setNth 0 0x08
          (List.replicate 64 2)))))))))))))

def cake_config_diffserv8 (s : cake_sched_data) : cake_sched_data :=
  let s1 : cake_sched_data :=
    { s with tin_cnt := 8, tin_index := diffserv8_index }
  cake_config_progression s1

/-- The codepoint-to-class table of cake_config_diffserv4 (default 1). -/
def diffserv4_index : List Nat :=
  (List.range 3).foldl
    (fun ti k =>
      let i := 2 * (k + 1)
      setNth 2 (0x20 + i) (setNth 2 (0x18 + i) (setNth 2 (0x10 + i) ti)))
    (setNth 3 0x38 (setNth 3 0x30 (setNth 3 0x2e (setNth 3 0x2c
      (setNth 3 0x28 (setNth 3 0x20 (setNth 2 0x10 (setNth 2 0x01
        (setNth 2 0x04 (setNth 2 0x18 (setNth 0 0x08
          (List.replicate 64 1))))))))))))

def cake_config_diffserv4 (s : cake_sched_data) : cake_sched_data :=
  let quantum := 256
  let s1 : cake_sched_data :=
    { s with tin_cnt := 4, tin_index := diffserv4_index }
  let rate := s1.rate_bps
  let upd := fun (s : cake_sched_data) (i r qp qb : Nat) =>
    { s with
      tins := setNth
        { cake_set_rate (s.tins.getD i default) r with
          tin_quantum_prio := qp % M16, tin_quantum_band := qb % M16 } i s.tins }
  let s2 := upd s1 0 rate (quantum >>> 4) (quantum >>> 4)
  let s3 := upd s2 1 (rate - (rate >>> 4)) quantum ((quantum >>> 3) + (quantum >>> 4))
  let s4 := upd s3 2 (rate - (rate >>> 2)) (quantum <<< 2 % M32) (quantum >>> 1)
  upd s4 3 (rate >>> 2) (quantum <<< 4 % M32) (quantum >>> 2)

/-- The tin_mode dispatch at the top of cake_reconfigure. -/
def cake_config_dispatch (s : cake_sched_data) : cake_sched_data :=
  if s.tin_mode = CAKE_MODE_PRECEDENCE then cake_config_precedence s
  else if s.tin_mode = CAKE_MODE_DIFFSERV8 then cake_config_diffserv8 s
  else if s.tin_mode = CAKE_MODE_DIFFSERV4 then cake_config_diffserv4 s
  else cake_config_besteffort s

/-- The for (c = q->tin_cnt; c < CAKE_MAX_TINS; c++) cake_clear_tin(q, c)
loop of cake_reconfigure. -/
@[irreducible] def cake_clear_unused (s : cake_sched_data) : cake_sched_data :=
  (List.range 8).foldl
    (fun s c => if s.tin_cnt ≤ c then cake_clear_tin s c else s) s

/-- cake_reconfigure: dispatch on tin_mode, drain tins beyond the new
tin_cnt, copy tin 0's rate into the global shaper and recompute the buffer
limit.  mtu stands for psched_mtu(qdisc_dev(sch)); the CoDel cparams and the
TCQ_F_CAN_BYPASS flag belong to external collaborators and are not
modelled. -/
def cake_reconfigure (s : cake_sched_data) (mtu : Nat) : cake_sched_data :=
  let s2 := cake_clear_unused (cake_config_dispatch s)
  let s3 : cake_sched_data :=
    { s2 with
      rate_ns := (s2.tins.getD 0 default).tin_rate_ns
      rate_shft := (s2.tins.getD 0 default).tin_rate_shft }
  let bl :=
    if s3.buffer_config_limit ≠ 0 then s3.buffer_config_limit
    else if s3.rate_bps ≠ 0 then
      max (s3.rate_bps * s3.interval / 250000 % M32) 65536
    else M32 - 1
  { s3 with buffer_limit := min bl (max (s3.limit * mtu % M32) s3.buffer_config_limit) }

/-- The parsed netlink attribute set accepted by cake_change. -/
structure cake_opts where
  base_rate : Option Nat
  diffserv_mode : Option Nat
  atm : Option Nat
  wash : Option Nat
  flow_mode : Option Nat
  overhead : Option Int
  rtt : Option Nat
  target : Option Nat
  autorate : Option Nat
  memory : Option Int
  deriving DecidableEq, Inhabited, Repr

def change_rate (s : cake_sched_data) (o : cake_opts) : cake_sched_data :=
  match o.base_rate with
  | some v => { s with rate_bps := v % M32 }
  | none => s

def change_diffserv (s : cake_sched_data) (o : cake_opts) : cake_sched_data :=
  match o.diffserv_mode with
  | some v => { s with tin_mode := v % 256 }
  | none => s

def change_atm (s : cake_sched_data) (o : cake_opts) : cake_sched_data :=
  match o.atm with
  | some v =>
    if v ≠ 0 then { s with rate_flags := s.rate_flags ||| CAKE_FLAG_ATM }
    else { s with rate_flags := s.rate_flags &&& 0xfffe }
  | none => s

def change_wash (s : cake_sched_data) (o : cake_opts) : cake_sched_data :=
  match o.wash with
  | some v =>
    if v ≠ 0 then { s with rate_flags := s.rate_flags ||| CAKE_FLAG_WASH }
    else { s with rate_flags := s.rate_flags &&& 0xfeff }
  | none => s

def change_flow_mode (s : cake_sched_data) (o : cake_opts) : cake_sched_data :=
  match o.flow_mode with
  | some v => { s with flow_mode := v % 256 }
  | none => s

/-- TCA_CAKE_OVERHEAD is a signed 32-bit attribute stored into the s16 field
rate_overhead. -/
def change_overhead (s : cake_sched_data) (o : cake_opts) : cake_sched_data :=
  match o.overhead with
  | some v => { s with rate_overhead := toS16 v }
  | none => s

def change_rtt (s : cake_sched_data) (o : cake_opts) : cake_sched_data :=
  match o.rtt with
  | some v => { s with interval := if v = 0 then 1 else v }
  | none => s

def change_target (s : cake_sched_data) (o : cake_opts) : cake_sched_data :=
  match o.target with
  | some v => { s with target := if v = 0 then 1 else v }
  | none => s

def change_autorate (s : cake_sched_data) (o : cake_opts) : cake_sched_data :=
  match o.autorate with
  | some v =>
    if v ≠ 0 then { s with rate_flags := s.rate_flags ||| CAKE_FLAG_AUTORATE_INGRESS }
    else { s with rate_flags := s.rate_flags &&& 0xffef }
  | none => s

/-- TCA_CAKE_MEMORY is read with nla_get_s32 and stored into the u32 field
buffer_config_limit. -/
def change_memory (s : cake_sched_data) (o : cake_opts) : cake_sched_data :=
  match o.memory with
  | some v => { s with buffer_config_limit := toU32 v }
  | none => s

/-- cake_change: apply each present attribute in source order, then
reconfigure (the tins table is always allocated in this model). -/
def cake_change (s : cake_sched_data) (o : cake_opts) (mtu : Nat) :
    cake_sched_data :=
  let s1 := change_rate s o
  let s2 := change_diffserv s1 o
  let s3 := change_atm s2 o
  let s4 := change_wash s3 o
  let s5 := change_flow_mode s4 o
  let s6 := change_overhead s5 o
  let s7 := change_rtt s6 o
  let s8 := change_target s7 o
  let s9 := change_autorate s8 o
  let s10 := change_memory s9 o
  cake_reconfigure s10 mtu

/-! ## Concrete states used by witnesses and counterexamples -/

/-- A flow table entry as cake_init zero-allocates it. -/
def emptyFlow : cake_flow := { queue := [], deficit := 0, dropped := 0 }

/-- A tin as it looks on a freshly initialised besteffort engine with no
rate (cake_init + cake_config_besteffort), with a parameterised flow-table
size (cake_init uses flows_cnt = 1024; the size does not affect any
behaviour modelled here). -/
def freshTin (fc : Nat) : cake_tin_data :=
  { flows := List.replicate fc emptyFlow
    backlogs := List.replicate fc 0
    flows_cnt := fc
    quantum := 1514
    bulk_flow_count := 0
    drop_overlimit := 0
    new_flows := []
    old_flows := []
    tin_time_next_packet := 0
    tin_rate_ns := 0
    tin_rate_bps := 0
    tin_rate_shft := 0
    tin_quantum_prio := 65535
    tin_quantum_band := 65535
    tin_deficit := 0
    tin_backlog := 0
    tin_dropped := 0
    tin_ecn_mark := 0
    packets := 0
    bytes := 0 }

/-- A freshly initialised, besteffort-configured, rate-unlimited engine with
flow tables of size fc and an explicitly given buffer limit. -/
def freshSched (fc lim : Nat) : cake_sched_data :=
  { tins := List.replicate 8 (freshTin fc)
    tin_cnt := 1
    tin_mode := CAKE_MODE_BESTEFFORT
    flow_mode := 4
    rate_shft := 0
    time_next_packet := 0
    rate_ns := 0
    rate_bps := 0
    rate_flags := 0
    rate_overhead := 0
    interval := 100000
    target := 5000
    buffer_used := 0
    buffer_limit := lim
    buffer_config_limit := 0
    cur_tin := 0
    cur_flow := 0
    tin_index := List.replicate 64 0
    limit := 10240
    qlen := 0
    qstats_backlog := 0
    qstats_drops := 0
    qstats_overlimits := 0 }

/-! ## Well-formedness invariants -/

/-- Per-tin well-formedness: the arrays have size flows_cnt, the backlog
array is the byte-count of each flow queue, tin_backlog is their total,
every non-empty flow is on one of the two flow lists, and every queued
packet has a positive length and truesize. -/
abbrev TinOk (b : cake_tin_data) : Prop :=
  b.flows.length = b.flows_cnt ∧ 1 ≤ b.flows_cnt ∧
  b.backlogs = b.flows.map flowBytes ∧ b.tin_backlog = tinBytes b ∧
  (∀ i ∈ List.range b.flows.length,
    (b.flows.getD i default).queue ≠ [] → i ∈ b.new_flows ∨ i ∈ b.old_flows) ∧
  (∀ f ∈ b.flows, ∀ p ∈ f.queue, 1 ≤ p.len ∧ 1 ≤ p.truesize)

/-- Engine well-formedness: 8 allocated tins, a valid tin_cnt, well-formed
tins, exact global accounting with all totals inside u32 range, and no
packets parked in tins at or beyond tin_cnt. -/
abbrev Wf (s : cake_sched_data) : Prop :=
  s.tins.length = 8 ∧ 1 ≤ s.tin_cnt ∧ s.tin_cnt ≤ 8 ∧
  (∀ b ∈ s.tins, TinOk b) ∧
  s.qstats_backlog = totalBytes s ∧ s.buffer_used = totalTrue s ∧
  s.qlen = totalCount s ∧
  totalBytes s < M32 ∧ totalTrue s < M32 ∧ totalCount s < M32 ∧
  (∀ b ∈ s.tins.drop s.tin_cnt, ∀ f ∈ b.flows, f.queue = [])

/-- Headroom for one more packet: the packet is sane and the u32 totals do
not overflow when it is added. -/
abbrev Room (s : cake_sched_data) (p : Packet) : Prop :=
  1 ≤ p.len ∧ 1 ≤ p.truesize ∧ p.hash < M32 ∧
  totalBytes s + p.len < M32 ∧ totalTrue s + p.truesize < M32 ∧
  totalCount s + 1 < M32

/-- The accounting-conservation property claimed by the specification: each
tin's per-flow backlog counters sum to its tin_backlog, and the tin backlogs
sum to the reported overall backlog. -/
abbrev AccountingOk (s : cake_sched_data) : Prop :=
  (∀ b ∈ s.tins, b.backlogs.sum = b.tin_backlog) ∧
  (s.tins.map cake_tin_data.tin_backlog).sum = s.qstats_backlog

/-- Structural shape only: 8 tins with full flow tables. -/
abbrev Shape (s : cake_sched_data) : Prop :=
  s.tins.length = 8 ∧ ∀ b ∈ s.tins, b.flows.length = b.flows_cnt

/-! ## Observation skeletons (used for the reset claim) -/

/-- A tin with its shaper clock blanked: two tins with equal tinCore agree
on everything except tin_time_next_packet. -/
def tinCore (b : cake_tin_data) : cake_tin_data :=
  { b with tin_time_next_packet := 0 }

/-- The flow-list state of a tin: activation lists, the tin quantum, and the
per-flow DRR deficits. -/
def tinLists (b : cake_tin_data) : List Nat × List Nat × Nat × List Int :=
  (b.new_flows, b.old_flows, b.quantum, b.flows.map cake_flow.deficit)

/-- The part of a tin's state that cake_reset is claimed not to restore:
flow-list membership and order, the class deficit, the tin shaper clock and
every flow's DRR deficit. -/
def tinSkel (b : cake_tin_data) :
    List Nat × List Nat × Int × Nat × List Int :=
  (b.new_flows, b.old_flows, b.tin_deficit, b.tin_time_next_packet,
    b.flows.map cake_flow.deficit)

/-- Scheduler-level skeleton: tin skeletons plus the global shaper clock,
the reported backlog and the CoDel parameters. -/
def schedSkel (s : cake_sched_data) :
    List (List Nat × List Nat × Int × Nat × List Int) × Nat × Nat × Nat × Nat :=
  (s.tins.map tinSkel, s.time_next_packet, s.qstats_backlog, s.interval,
    s.target)

/-! ## Concrete packets and traces for witnesses and counterexamples -/

def pktA : Packet := { len := 100, truesize := 20, dscp := 0, hash := 0 }
def pktB : Packet := { len := 50, truesize := 10, dscp := 0, hash := 2 ^ 30 }
def pktC : Packet := { len := 10, truesize := 5, dscp := 0, hash := 0 }

/-- Trace for the C2 counterexample: a fresh besteffort engine with a
16-byte buffer limit; enqueueing pktA overflows the buffer, so cake_drop
empties flow 0 again but leaves it on new_flows. -/
def cexC2_s1 : cake_sched_data :=
  (cake_enqueue (freshSched 4 16) pktA 0).getD (freshSched 4 16)

/-- Second step: pktB occupies flow 1, so new_flows = [0, 1] with flow 0
empty. -/
def cexC2_s2 : cake_sched_data := (cake_enqueue cexC2_s1 pktB 0).getD cexC2_s1

/-- Third step: pktC is enqueued into the empty-but-listed flow 0. -/
def cexC2_s3 : cake_sched_data := (cake_enqueue cexC2_s2 pktC 0).getD cexC2_s2

/-- Base state for the C8 counterexample: one packet enqueued on a fresh
engine with an ample buffer. -/
def cexC8_base : cake_sched_data :=
  (cake_enqueue (freshSched 4 1000000) pktA 0).getD (freshSched 4 1000000)

/-- The follow-up operation sequence of the C8 counterexample: enqueue pktB
(flow 1) then pktC (flow 0). -/
def cexC8_run (s : cake_sched_data) : cake_sched_data :=
  (cake_enqueue ((cake_enqueue s pktB 0).getD s) pktC 0).getD s

/-- The externally observable quantities compared in the C8 counterexample:
the activation order (tin 0's new-flows list) and the reported backlog. -/
def obsC8 (s : cake_sched_data) : List Nat × Nat :=
  ((s.tins.getD 0 default).new_flows, s.qstats_backlog)

/-- A tin used to exhibit the crediting rule: quantum_prio = 3,
quantum_band = 7, shaper clock 10 (in the future relative to now = 0). -/
def cexC1_tin : cake_tin_data :=
  { freshTin 2 with
    tin_quantum_prio := 3, tin_quantum_band := 7, tin_time_next_packet := 10 }

/-- A one-tin scheduler state around cexC1_tin. -/
def cexC1_state : cake_sched_data :=
  { freshSched 2 100 with tins := setNth cexC1_tin 0 (freshSched 2 100).tins }

/-- Small well-formed state used by witnesses. -/
def wit_state : cake_sched_data := freshSched 2 1000

/-- Packet used by witnesses. -/
def wit_pkt : Packet := { len := 100, truesize := 64, dscp := 0, hash := 0 }

/-- An over-limit well-formed state for the C4 witness: pktA (truesize 20)
parked in a scheduler whose buffer_limit is 10. -/
def wit_over : cake_sched_data :=
  cake_enqueue_insert (freshSched 2 10) pktA 0 0

/-- State for the C7 witness: positive overhead 24 with ATM mode on. -/
def witC7_state : cake_sched_data :=
  { freshSched 2 1000 with rate_overhead := 24, rate_flags := CAKE_FLAG_ATM }

/-- Attribute set for the C9 witness: rtt and target both present and 0. -/
def witC9_opts : cake_opts :=
  { base_rate := none, diffserv_mode := none, atm := none, wash := none,
    flow_mode := none, overhead := none, rtt := some 0, target := some 0,
    autorate := none, memory := none }

/-- State for the C10 witness: negative overhead -200 larger in magnitude
than any packet it will see. -/
def witC10_state : cake_sched_data :=
  { freshSched 2 1000 with rate_overhead := -200 }

/-! # Theorems

First the generic list and arithmetic lemmas, then preservation lemmas for
each operation, then the claim theorems. -/

theorem setNth_nil (v : α) (i : Nat) : setNth v i ([] : List α) = [] := by
  cases i <;> rfl

theorem length_setNth (v : α) (i : Nat) (l : List α) :
    (setNth v i l).length = l.length := by
  induction l generalizing i with
  | nil => cases i <;> rfl
  | cons x xs ih => cases i with
    | zero => rfl
    | succ n => simpa [setNth] using ih n

theorem getD_setNth_self (v : α) (i : Nat) (l : List α) (d : α)
    (h : i < l.length) : (setNth v i l).getD i d = v := by
  induction l generalizing i with
  | nil => simp at h
  | cons x xs ih => cases i with
    | zero => rfl
    | succ n => simpa [setNth] using ih n (by simpa using h)

theorem getD_setNth_ne (v : α) (i j : Nat) (l : List α) (d : α)
    (h : j ≠ i) : (setNth v i l).getD j d = l.getD j d := by
  induction l generalizing i j with
  | nil => simp [setNth_nil]
  | cons x xs ih => cases i with
    | zero =>
      cases j with
      | zero => exact absurd rfl h
      | succ m => rfl
    | succ n =>
      cases j with
      | zero => rfl
      | succ m => simpa [setNth] using ih n m (by omega)

theorem setNth_getD_self (l : List α) (i : Nat) (d : α) :
    setNth (l.getD i d) i l = l := by
  induction l generalizing i with
  | nil => cases i <;> rfl
  | cons x xs ih => cases i with
    | zero => rfl
    | succ n => simpa [setNth] using ih n

theorem map_setNth (g : α → β) (v : α) (i : Nat) (l : List α) :
    (setNth v i l).map g = setNth (g v) i (l.map g) := by
  induction l generalizing i with
  | nil => cases i <;> rfl
  | cons x xs ih => cases i with
    | zero => rfl
    | succ n => simpa [setNth] using ih n

theorem sum_setNth_add (v i : Nat) (l : List Nat) (h : i < l.length) :
    (setNth v i l).sum + l.getD i 0 = l.sum + v := by
  induction l generalizing i with
  | nil => simp at h
  | cons x xs ih => cases i with
    | zero => simp [setNth]; omega
    | succ n =>
      have := ih n (by simpa using h)
      simp only [setNth, List.sum_cons, List.getD_cons_succ]
      omega

theorem getD_map (g : α → β) (l : List α) (i : Nat) (d : α) :
    (l.map g).getD i (g d) = g (l.getD i d) := by
  induction l generalizing i with
  | nil => simp
  | cons x xs ih => cases i with
    | zero => rfl
    | succ n => simp only [List.map_cons, List.getD_cons_succ]; exact ih n

theorem getD_eq_of_lt (l : List α) (d1 d2 : α) (i : Nat) (h : i < l.length) :
    l.getD i d1 = l.getD i d2 := by
  induction l generalizing i with
  | nil => simp at h
  | cons x xs ih => cases i with
    | zero => rfl
    | succ n => simpa using ih n (by simpa using h)

theorem getD_mem (l : List α) (i : Nat) (d : α) (h : i < l.length) :
    l.getD i d ∈ l := by
  induction l generalizing i with
  | nil => simp at h
  | cons x xs ih => cases i with
    | zero => simp
    | succ n => exact List.mem_cons_of_mem x (ih n (by simpa using h))

theorem mem_setNth (v : α) (i : Nat) (l : List α) (a : α)
    (h : a ∈ setNth v i l) : a = v ∨ a ∈ l := by
  induction l generalizing i with
  | nil => simp [setNth_nil] at h
  | cons x xs ih => cases i with
    | zero =>
      rcases List.mem_cons.mp h with h1 | h1
      · exact Or.inl h1
      · exact Or.inr (List.mem_cons_of_mem x h1)
    | succ n =>
      rcases List.mem_cons.mp h with h1 | h1
      · exact Or.inr (h1 ▸ List.mem_cons_self x xs)
      · rcases ih n h1 with h2 | h2
        · exact Or.inl h2
        · exact Or.inr (List.mem_cons_of_mem x h2)

theorem drop_setNth_lt (v : α) (i n : Nat) (l : List α) (h : i < n) :
    (setNth v i l).drop n = l.drop n := by
  induction l generalizing i n with
  | nil => simp [setNth_nil]
  | cons x xs ih =>
    cases i with
    | zero =>
      cases n with
      | zero => omega
      | succ m => simp [setNth]
    | succ k =>
      cases n with
      | zero => omega
      | succ m => simpa [setNth] using ih k m (by omega)

theorem sum_pos_exists (l : List Nat) (h : l.sum ≠ 0) : ∃ x ∈ l, x ≠ 0 := by
  by_contra hc
  push_neg at hc
  exact h (List.sum_eq_zero hc)

theorem foldl_preserve (P : β → Prop) (f : β → α → β) (l : List α)
    (h : ∀ b, P b → ∀ a ∈ l, P (f b a)) (b0 : β) (h0 : P b0) :
    P (l.foldl f b0) := by
  induction l generalizing b0 with
  | nil => exact h0
  | cons x xs ih =>
    exact ih (fun b hb a ha => h b hb a (List.mem_cons_of_mem x ha))
      (f b0 x) (h b0 h0 x (List.mem_cons_self x xs))

theorem foldl_mono (m : β → Nat) (f : β → α → β)
    (hmono : ∀ b a, m b ≤ m (f b a)) (l : List α) (b0 : β) :
    m b0 ≤ m (l.foldl f b0) := by
  induction l generalizing b0 with
  | nil => exact Nat.le_refl _
  | cons x xs ih => exact Nat.le_trans (hmono b0 x) (ih (f b0 x))

theorem foldl_le_of_mem (m : β → Nat) (f : β → α → β)
    (hmono : ∀ b a, m b ≤ m (f b a)) (a0 : α) (l : List α) (ha : a0 ∈ l)
    (c : Nat) (hc : ∀ b, c ≤ m (f b a0)) (b0 : β) :
    c ≤ m (l.foldl f b0) := by
  induction l generalizing b0 with
  | nil => simp at ha
  | cons x xs ih =>
    rcases List.mem_cons.mp ha with h1 | h1
    · have h2 := hc b0
      rw [h1] at h2
      exact Nat.le_trans h2 (foldl_mono m f hmono xs (f b0 x))
    · exact ih h1 (f b0 x)

theorem add32_eq (a b : Nat) (h : a + b < M32) : add32 a b = a + b :=
  Nat.mod_eq_of_lt h

theorem sub32_eq (a b : Nat) (hb : b ≤ a) (ha : a < M32) :
    sub32 a b = a - b := by
  unfold sub32
  rw [Nat.mod_eq_of_lt (by omega : b < M32)]
  have h1 : a + M32 - b = a - b + M32 := by omega
  rw [h1, Nat.add_mod_right, Nat.mod_eq_of_lt (by omega)]

theorem add64_eq (a b : Nat) (h : a + b < M64) : add64 a b = a + b :=
  Nat.mod_eq_of_lt h

theorem getD_eq_get (l : List α) (d : α) (i : Nat) (h : i < l.length) :
    l.getD i d = l.get ⟨i, h⟩ := by
  induction l generalizing i with
  | nil => simp at h
  | cons x xs ih => cases i with
    | zero => rfl
    | succ n => simpa using ih n (by simpa using h)

/-- An in-range element with index at least n is a member of drop n. -/
theorem getD_mem_drop (l : List α) (n i : Nat) (d : α) (hn : n ≤ i)
    (hi : i < l.length) : l.getD i d ∈ l.drop n := by
  induction l generalizing n i with
  | nil => simp at hi
  | cons x xs ih =>
    cases n with
    | zero => exact getD_mem _ i d hi
    | succ m =>
      cases i with
      | zero => omega
      | succ k =>
        simpa using ih m k (by omega) (by simpa using hi)

/-- A default element whose measure is 0 never raises a mapped sum. -/
theorem summap_bound (m : α → Nat) (l : List α) (i : Nat) (d : α)
    (hd : m d = 0) : m (l.getD i d) ≤ (l.map m).sum := by
  by_cases h : i < l.length
  · exact List.single_le_sum (fun x _ => Nat.zero_le x) _
      (List.mem_map_of_mem m (getD_mem l i d h))
  · rw [List.getD_eq_default _ _ (by omega)]
    simp [hd]

/-- Replacing element i changes a mapped sum by the difference of measures
(stated additively to avoid Nat truncation). -/
theorem sum_map_setNth (m : α → Nat) (v : α) (i : Nat) (l : List α) (d : α)
    (h : i < l.length) :
    ((setNth v i l).map m).sum + m (l.getD i d) = (l.map m).sum + m v := by
  rw [map_setNth]
  have h2 := sum_setNth_add (m v) i (l.map m) (by simpa using h)
  have h3 : (l.map m).getD i 0 = m (l.getD i d) := by
    rw [getD_eq_of_lt (l.map m) 0 (m d) i (by simpa using h)]
    exact getD_map m l i d
  omega

theorem flowBytes_pos (f : cake_flow) (p : Packet) (rest : List Packet)
    (hq : f.queue = p :: rest) (hp : 1 ≤ p.len) : 1 ≤ flowBytes f := by
  simp only [flowBytes, hq, List.map_cons, List.sum_cons]
  omega

/-- Under per-tin well-formedness, the backlog counter at any index equals
the byte count of the flow queue at that index. -/
theorem backlogAt_of_tinok (b : cake_tin_data)
    (hb : b.backlogs = b.flows.map flowBytes) (i : Nat) :
    b.backlogs.getD i 0 = flowBytes (b.flows.getD i default) := by
  rw [hb]
  exact getD_map flowBytes b.flows i default

theorem tinBytes_le_total (s : cake_sched_data) (t : Nat) :
    tinBytes (s.tins.getD t default) ≤ totalBytes s :=
  summap_bound tinBytes s.tins t default rfl

theorem tinTrue_le_total (s : cake_sched_data) (t : Nat) :
    tinTrue (s.tins.getD t default) ≤ totalTrue s :=
  summap_bound tinTrue s.tins t default rfl

theorem tinCount_le_total (s : cake_sched_data) (t : Nat) :
    tinCount (s.tins.getD t default) ≤ totalCount s :=
  summap_bound tinCount s.tins t default rfl

theorem flowBytes_le_tin (b : cake_tin_data) (i : Nat) :
    flowBytes (b.flows.getD i default) ≤ tinBytes b :=
  summap_bound flowBytes b.flows i default rfl

theorem flowTrue_le_tin (b : cake_tin_data) (i : Nat) :
    flowTrue (b.flows.getD i default) ≤ tinTrue b :=
  summap_bound flowTrue b.flows i default rfl

theorem flowCount_le_tin (b : cake_tin_data) (i : Nat) :
    flowCount (b.flows.getD i default) ≤ tinCount b :=
  summap_bound flowCount b.flows i default rfl

/-- Well-formedness delivers the claimed accounting equalities. -/
theorem wf_accountingOk (s : cake_sched_data) (h : Wf s) : AccountingOk s := by
  obtain ⟨h1, h2, h3, h4, h5, h6, h7, h8, h9, h10, h11⟩ := h
  constructor
  · intro b hb
    obtain ⟨k1, k2, k3, k4, k5, k6⟩ := h4 b hb
    rw [k3, k4, tinBytes]
  · have hmap : s.tins.map cake_tin_data.tin_backlog = s.tins.map tinBytes := by
      apply List.map_congr_left
      intro b hb
      exact (h4 b hb).2.2.2.1
    rw [hmap, h5, totalBytes]

/-! ## Lemmas about the fattest-flow scan of cake_drop -/

theorem scanStep_mono (bl : Nat → Nat) (j : Nat) (acc : Nat × Nat × Nat)
    (i : Nat) : acc.1 ≤ (scanStep bl j acc i).1 := by
  unfold scanStep
  split <;> omega

theorem scanStep_le_self (bl : Nat → Nat) (j : Nat) (acc : Nat × Nat × Nat)
    (i : Nat) : bl i ≤ (scanStep bl j acc i).1 := by
  unfold scanStep
  split <;> omega

theorem tinScan_mono (b : cake_tin_data) (j : Nat) (acc : Nat × Nat × Nat) :
    acc.1 ≤ (tinScan b j acc).1 := by
  unfold tinScan
  exact Nat.le_trans
    (foldl_mono (fun a => a.1) (scanStep (fun i => b.backlogs.getD i 0) j)
      (fun a i => scanStep_mono _ j a i) b.old_flows acc)
    (foldl_mono (fun a => a.1) (scanStep (fun i => b.backlogs.getD i 0) j)
      (fun a i => scanStep_mono _ j a i) b.new_flows _)

/-- Every flow on either list of the tin is bounded by the scan maximum. -/
theorem tinScan_le (b : cake_tin_data) (j k : Nat) (acc : Nat × Nat × Nat)
    (hk : k ∈ b.old_flows ∨ k ∈ b.new_flows) :
    b.backlogs.getD k 0 ≤ (tinScan b j acc).1 := by
  unfold tinScan
  rcases hk with hk | hk
  · exact Nat.le_trans
      (foldl_le_of_mem (fun a => a.1)
        (scanStep (fun i => b.backlogs.getD i 0) j)
        (fun a i => scanStep_mono _ j a i) k b.old_flows hk _
        (fun a => scanStep_le_self _ j a k) acc)
      (foldl_mono (fun a => a.1) (scanStep (fun i => b.backlogs.getD i 0) j)
        (fun a i => scanStep_mono _ j a i) b.new_flows _)
  · exact foldl_le_of_mem (fun a => a.1)
      (scanStep (fun i => b.backlogs.getD i 0) j)
      (fun a i => scanStep_mono _ j a i) k b.new_flows hk _
      (fun a => scanStep_le_self _ j a k) _

/-- Provenance of the scan result: either nothing was recorded (maximum 0)
or the recorded (idx, tin) pair is a real flow of a tin below tin_cnt whose
backlog counter is the recorded maximum. -/
theorem dropScan_spec (s : cake_sched_data) :
    (dropScan s).1 = 0 ∨
    ((dropScan s).2.2 < s.tin_cnt ∧
      backlogAt s (dropScan s).2.2 (dropScan s).2.1 = (dropScan s).1) := by
  unfold dropScan
  apply foldl_preserve
    (fun acc : Nat × Nat × Nat =>
      acc.1 = 0 ∨ (acc.2.2 < s.tin_cnt ∧ backlogAt s acc.2.2 acc.2.1 = acc.1))
  · intro acc hacc j hj
    have hjlt : j < s.tin_cnt := List.mem_range.mp hj
    unfold tinScan
    apply foldl_preserve (fun acc : Nat × Nat × Nat =>
      acc.1 = 0 ∨ (acc.2.2 < s.tin_cnt ∧ backlogAt s acc.2.2 acc.2.1 = acc.1))
    · intro a ha i _
      unfold scanStep
      split
      · exact Or.inr ⟨hjlt, rfl⟩
      · exact ha
    · apply foldl_preserve (fun acc : Nat × Nat × Nat =>
        acc.1 = 0 ∨ (acc.2.2 < s.tin_cnt ∧ backlogAt s acc.2.2 acc.2.1 = acc.1))
      · intro a ha i _
        unfold scanStep
        split
        · exact Or.inr ⟨hjlt, rfl⟩
        · exact ha
      · exact hacc
  · exact Or.inl rfl

/-- Under well-formedness, the scan maximum dominates every backlog counter
of every tin. -/
theorem dropScan_ge (s : cake_sched_data) (hwf : Wf s) (j k : Nat) :
    backlogAt s j k ≤ (dropScan s).1 := by
  obtain ⟨h1, h2, h3, h4, h5, h6, h7, h8, h9, h10, h11⟩ := hwf
  by_cases hz : backlogAt s j k = 0
  · omega
  -- the tin exists
  have hjlen : j < s.tins.length := by
    by_contra hc
    have hdef : s.tins.getD j default = default := List.getD_eq_default _ _ (by omega)
    rw [backlogAt, hdef] at hz
    exact hz rfl
  have hok := h4 _ (getD_mem s.tins j default hjlen)
  obtain ⟨k1, k2, k3, k4, k5, k6⟩ := hok
  -- the flow index is in range
  have hklen : k < (s.tins.getD j default).backlogs.length := by
    by_contra hc
    rw [backlogAt, List.getD_eq_default _ _ (by omega)] at hz
    exact hz rfl
  have hklen2 : k < (s.tins.getD j default).flows.length := by
    rw [k3] at hklen
    simpa using hklen
  -- the flow queue is non-empty
  have hfb : flowBytes ((s.tins.getD j default).flows.getD k default) ≠ 0 := by
    rw [backlogAt, backlogAt_of_tinok _ k3 k] at hz
    exact hz
  have hq : ((s.tins.getD j default).flows.getD k default).queue ≠ [] := by
    intro hc
    rw [flowBytes, hc] at hfb
    simp at hfb
  -- the tin is below tin_cnt (tins at or beyond tin_cnt are empty)
  have hjcnt : j < s.tin_cnt := by
    by_contra hc
    exact hq (h11 _ (getD_mem_drop s.tins s.tin_cnt j default (by omega) hjlen)
      _ (getD_mem _ k default hklen2))
  -- it is on a list, hence scanned
  have hlisted := k5 k (List.mem_range.mpr hklen2) hq
  unfold dropScan
  exact foldl_le_of_mem (fun a => a.1)
    (fun acc j2 => tinScan (s.tins.getD j2 default) j2 acc)
    (fun acc j2 => tinScan_mono (s.tins.getD j2 default) j2 acc)
    j (List.range s.tin_cnt) (List.mem_range.mpr hjcnt) _
    (fun acc => tinScan_le _ j k acc hlisted.symm)
    (0, 0, 0)

/-! ## Removing a head packet from a flow preserves tin well-formedness -/

/-- Generic head-pop lemma, shared by cake_drop and custom_dequeue: if tin b2
equals tin b except that the flow at index i lost its head packet p (its
replacement f2 carries the remaining queue rest) and the backlog counters
were decremented accordingly, then b2 is well-formed and its byte, truesize
and packet totals drop by exactly the head packet's contribution. -/
theorem tinok_pop_generic (b b2 : cake_tin_data) (i : Nat) (p : Packet)
    (rest : List Packet) (f2 : cake_flow)
    (hok : TinOk b)
    (hq : (b.flows.getD i default).queue = p :: rest)
    (hf2q : f2.queue = rest)
    (hbnd : tinBytes b < M32)
    (e1 : b2.flows = setNth f2 i b.flows)
    (e2 : b2.backlogs = setNth (sub32 (b.backlogs.getD i 0) p.len) i b.backlogs)
    (e3 : b2.tin_backlog = sub32 b.tin_backlog p.len)
    (e4 : b2.flows_cnt = b.flows_cnt)
    (e5 : b2.new_flows = b.new_flows) (e6 : b2.old_flows = b.old_flows) :
    TinOk b2 ∧ tinBytes b2 + p.len = tinBytes b ∧
    tinTrue b2 + p.truesize = tinTrue b ∧ tinCount b2 + 1 = tinCount b ∧
    1 ≤ p.len ∧ 1 ≤ p.truesize := by
  obtain ⟨k1, k2, k3, k4, k5, k6⟩ := hok
  have hi : i < b.flows.length := by
    by_contra hc
    rw [List.getD_eq_default _ _ (by omega)] at hq
    exact absurd hq (by simp [emptyFlow])
  -- the head packet is a well-formed member of the old flow
  have hfmem : b.flows.getD i default ∈ b.flows := getD_mem _ i default hi
  have hpmem : p ∈ (b.flows.getD i default).queue := by
    rw [hq]; exact List.mem_cons_self p rest
  have hppos := k6 _ hfmem p hpmem
  -- byte/true/count decompositions of the popped flow
  have hfb : flowBytes (b.flows.getD i default) =
      p.len + (rest.map Packet.len).sum := by
    unfold flowBytes
    rw [hq]
    simp
  have hft : flowTrue (b.flows.getD i default) =
      p.truesize + (rest.map Packet.truesize).sum := by
    unfold flowTrue
    rw [hq]
    simp
  have hfc : flowCount (b.flows.getD i default) = rest.length + 1 := by
    unfold flowCount
    rw [hq]
    simp
  have hf2b : flowBytes f2 = (rest.map Packet.len).sum := by
    unfold flowBytes
    rw [hf2q]
  have hf2t : flowTrue f2 = (rest.map Packet.truesize).sum := by
    unfold flowTrue
    rw [hf2q]
  have hf2c : flowCount f2 = rest.length := by
    unfold flowCount
    rw [hf2q]
  have hfb_le : flowBytes (b.flows.getD i default) ≤ tinBytes b :=
    flowBytes_le_tin b i
  -- the decremented backlog counter is the byte count of the shrunk flow
  have hbacklog : sub32 (b.backlogs.getD i 0) p.len = flowBytes f2 := by
    rw [backlogAt_of_tinok b k3 i, hfb, hf2b,
      sub32_eq _ _ (by omega) (by omega)]
    omega
  -- the three totals, additively
  have hB : tinBytes b2 + flowBytes (b.flows.getD i default) =
      tinBytes b + flowBytes f2 := by
    rw [tinBytes, tinBytes, e1]
    exact sum_map_setNth flowBytes f2 i b.flows default hi
  have hT : tinTrue b2 + flowTrue (b.flows.getD i default) =
      tinTrue b + flowTrue f2 := by
    rw [tinTrue, tinTrue, e1]
    exact sum_map_setNth flowTrue f2 i b.flows default hi
  have hC : tinCount b2 + flowCount (b.flows.getD i default) =
      tinCount b + flowCount f2 := by
    rw [tinCount, tinCount, e1]
    exact sum_map_setNth flowCount f2 i b.flows default hi
  refine ⟨⟨?_, ?_, ?_, ?_, ?_, ?_⟩, by omega, by omega, by omega,
    hppos.1, hppos.2⟩
  · rw [e1, length_setNth, k1, e4]
  · omega
  · rw [e2, e1, map_setNth, hbacklog, k3]
  · rw [e3, k4, sub32_eq _ _ (by omega) (by omega)]
    omega
  · intro i2 hi2 hne
    rw [e1, length_setNth] at hi2
    rw [e5, e6]
    by_cases hii : i2 = i
    · subst hii
      apply k5 i2 hi2
      rw [hq]
      simp
    · rw [e1, getD_setNth_ne _ _ _ _ _ hii] at hne
      exact k5 i2 hi2 hne
  · intro f hf q hqf
    rw [e1] at hf
    rcases mem_setNth _ _ _ _ hf with hf | hf
    · subst hf
      rw [hf2q] at hqf
      exact k6 _ hfmem q (by rw [hq]; exact List.mem_cons_of_mem p hqf)
    · exact k6 f hf q hqf

/-- Replacing tin t by a tin with reduced totals reduces the scheduler-wide
totals by the same amounts. -/
theorem sched_pop_totals (s s2 : cake_sched_data) (t : Nat)
    (b2 : cake_tin_data) (p : Packet)
    (e : s2.tins = setNth b2 t s.tins) (ht : t < s.tins.length)
    (hB : tinBytes b2 + p.len = tinBytes (s.tins.getD t default))
    (hT : tinTrue b2 + p.truesize = tinTrue (s.tins.getD t default))
    (hC : tinCount b2 + 1 = tinCount (s.tins.getD t default)) :
    totalBytes s2 + p.len = totalBytes s ∧
    totalTrue s2 + p.truesize = totalTrue s ∧
    totalCount s2 + 1 = totalCount s := by
  have h1 : totalBytes s2 + tinBytes (s.tins.getD t default) =
      totalBytes s + tinBytes b2 := by
    rw [totalBytes, totalBytes, e]
    exact sum_map_setNth tinBytes b2 t s.tins default ht
  have h2 : totalTrue s2 + tinTrue (s.tins.getD t default) =
      totalTrue s + tinTrue b2 := by
    rw [totalTrue, totalTrue, e]
    exact sum_map_setNth tinTrue b2 t s.tins default ht
  have h3 : totalCount s2 + tinCount (s.tins.getD t default) =
      totalCount s + tinCount b2 := by
    rw [totalCount, totalCount, e]
    exact sum_map_setNth tinCount b2 t s.tins default ht
  omega

/-- While a well-formed state is over its buffer limit there is a queued
packet, so some backlog counter is positive. -/
theorem exists_backlogged (s : cake_sched_data) (hwf : Wf s)
    (hover : s.buffer_limit < s.buffer_used) :
    ∃ j k, 0 < backlogAt s j k := by
  obtain ⟨h1, h2, h3, h4, h5, h6, h7, h8, h9, h10, h11⟩ := hwf
  have htt : totalTrue s ≠ 0 := by omega
  obtain ⟨x, hx, hxne⟩ := sum_pos_exists _ htt
  obtain ⟨b, hbmem, hbx⟩ := List.mem_map.mp hx
  have hbt : tinTrue b ≠ 0 := by rw [hbx]; exact hxne
  obtain ⟨y, hy, hyne⟩ := sum_pos_exists _ hbt
  obtain ⟨f, hfmem, hfy⟩ := List.mem_map.mp hy
  have hft : flowTrue f ≠ 0 := by rw [hfy]; exact hyne
  have hfq : f.queue ≠ [] := by
    intro hc
    apply hft
    unfold flowTrue
    rw [hc]
    rfl
  obtain ⟨⟨j, hj⟩, hbj⟩ := List.mem_iff_get.mp hbmem
  obtain ⟨⟨k, hk⟩, hfk⟩ := List.mem_iff_get.mp hfmem
  refine ⟨j, k, ?_⟩
  have hbj2 : s.tins.getD j default = b := by
    rw [getD_eq_get _ _ _ hj, hbj]
  have hfk2 : b.flows.getD k default = f := by
    rw [getD_eq_get _ _ _ hk, hfk]
  obtain ⟨k1, k2, k3, k4, k5, k6⟩ := h4 b hbmem
  rw [backlogAt, hbj2, backlogAt_of_tinok b k3 k, hfk2]
  rcases hque : f.queue with _ | ⟨q, qr⟩
  · exact absurd hque hfq
  · exact flowBytes_pos f q qr hque (k6 f hfmem q (by rw [hque]; simp)).1

/-- Removing the head packet of the flow selected by dropScan preserves
well-formedness; the buffer limit is untouched and the queue length
decreases by one. -/
theorem dropResult_wf (s : cake_sched_data) (p : Packet) (rest : List Packet)
    (hwf : Wf s)
    (hq : ((s.tins.getD (dropScan s).2.2 default).flows.getD (dropScan s).2.1
      default).queue = p :: rest) :
    Wf (dropResult s p rest) ∧
    (dropResult s p rest).buffer_limit = s.buffer_limit ∧
    (dropResult s p rest).qlen + 1 = s.qlen := by
  obtain ⟨h1, h2, h3, h4, h5, h6, h7, h8, h9, h10, h11⟩ := hwf
  have htlen : (dropScan s).2.2 < s.tins.length := by
    by_contra hc
    have hdef : s.tins.getD (dropScan s).2.2 default = default :=
      List.getD_eq_default _ _ (by omega)
    have hznil : ((default : cake_tin_data).flows.getD (dropScan s).2.1
        default).queue = ([] : List Packet) := rfl
    rw [hdef, hznil] at hq
    exact absurd hq (by simp)
  have hokT := h4 _ (getD_mem s.tins (dropScan s).2.2 default htlen)
  have hiT : (dropScan s).2.1 <
      (s.tins.getD (dropScan s).2.2 default).flows.length := by
    by_contra hc
    have hdef : (s.tins.getD (dropScan s).2.2 default).flows.getD
        (dropScan s).2.1 default = default :=
      List.getD_eq_default _ _ (by omega)
    rw [hdef, show (default : cake_flow).queue = ([] : List Packet)
      from rfl] at hq
    exact absurd hq (by simp)
  have htlt : (dropScan s).2.2 < s.tin_cnt := by
    by_contra hc
    have hmem := getD_mem_drop s.tins s.tin_cnt (dropScan s).2.2 default
      (by omega) htlen
    have := h11 _ hmem _ (getD_mem _ (dropScan s).2.1 default hiT)
    rw [hq] at this
    exact absurd this (by simp)
  have hpop := tinok_pop_generic
    (s.tins.getD (dropScan s).2.2 default)
    ((dropResult s p rest).tins.getD (dropScan s).2.2 default)
    (dropScan s).2.1 p rest
    { (s.tins.getD (dropScan s).2.2 default).flows.getD (dropScan s).2.1
        default with
      queue := rest
      dropped := add32 ((s.tins.getD (dropScan s).2.2 default).flows.getD
        (dropScan s).2.1 default).dropped 1 }
    hokT hq rfl
    (Nat.lt_of_le_of_lt (tinBytes_le_total s _) h8)
    (by
      rw [dropResult]
      rw [getD_setNth_self _ _ _ _ htlen])
    (by
      rw [dropResult]
      rw [getD_setNth_self _ _ _ _ htlen])
    (by
      rw [dropResult]
      rw [getD_setNth_self _ _ _ _ htlen])
    (by
      rw [dropResult]
      rw [getD_setNth_self _ _ _ _ htlen])
    (by
      rw [dropResult]
      rw [getD_setNth_self _ _ _ _ htlen])
    (by
      rw [dropResult]
      rw [getD_setNth_self _ _ _ _ htlen])
  obtain ⟨hok2, hB, hT, hC, hp1, hp2⟩ := hpop
  have htins : (dropResult s p rest).tins =
      setNth ((dropResult s p rest).tins.getD (dropScan s).2.2 default)
        (dropScan s).2.2 s.tins := by
    rw [dropResult]
    rw [getD_setNth_self _ _ _ _ htlen]
  have htot := sched_pop_totals s (dropResult s p rest) (dropScan s).2.2
    ((dropResult s p rest).tins.getD (dropScan s).2.2 default) p
    htins htlen hB hT hC
  obtain ⟨htB, htT, htC⟩ := htot
  have hcnt1 : 1 ≤ totalCount s := by omega
  refine ⟨⟨?_, h2, h3, ?_, ?_, ?_, ?_, by omega, by omega, by omega, ?_⟩,
    rfl, ?_⟩
  · rw [htins, length_setNth, h1]
  · intro b hb
    rw [htins] at hb
    rcases mem_setNth _ _ _ _ hb with hb | hb
    · rw [hb]; exact hok2
    · exact h4 b hb
  · show sub32 s.qstats_backlog p.len = totalBytes (dropResult s p rest)
    rw [h5, sub32_eq _ _ (by omega) h8]
    omega
  · show sub32 s.buffer_used p.truesize = totalTrue (dropResult s p rest)
    rw [h6, sub32_eq _ _ (by omega) h9]
    omega
  · show sub32 s.qlen 1 = totalCount (dropResult s p rest)
    rw [h7, sub32_eq _ _ (by omega) h10]
    omega
  · intro b hb
    apply h11 b
    have hdrop_eq : (dropResult s p rest).tins.drop s.tin_cnt =
        s.tins.drop s.tin_cnt := by
      rw [htins]
      exact drop_setNth_lt _ _ _ _ htlt
    rw [show (dropResult s p rest).tin_cnt = s.tin_cnt from rfl,
      hdrop_eq] at hb
    exact hb
  · show sub32 s.qlen 1 + 1 = s.qlen
    rw [h7, sub32_eq _ _ (by omega) h10]
    omega

/-- Inversion of a successful cake_drop: it removed the head packet of the
flow selected by dropScan. -/
theorem cake_drop_inv (s s2 : cake_sched_data) (r : Nat)
    (h : cake_drop s = some (s2, r)) :
    ∃ p rest,
      ((s.tins.getD (dropScan s).2.2 default).flows.getD (dropScan s).2.1
        default).queue = p :: rest ∧ s2 = dropResult s p rest := by
  rcases hq : ((s.tins.getD (dropScan s).2.2 default).flows.getD
      (dropScan s).2.1 default).queue with _ | ⟨p, rest⟩
  · rw [show cake_drop s = none by simp only [cake_drop]; rw [hq]] at h
    exact absurd h (by simp)
  · refine ⟨p, rest, rfl, ?_⟩
    rw [show cake_drop s = some (dropResult s p rest,
      (dropScan s).2.1 + ((dropScan s).2.2 <<< 16)) by
        simp only [cake_drop]; rw [hq]] at h
    exact (congrArg Prod.fst (Option.some.inj h)).symm

/-- cake_drop on a well-formed over-limit state: the drop succeeds, the
result is well-formed, the buffer limit is untouched and the queue length
decreases by one; moreover the dropped flow's backlog dominates every
backlog counter in the scheduler. -/
theorem cake_drop_spec (s : cake_sched_data) (hwf : Wf s)
    (hover : s.buffer_limit < s.buffer_used) :
    ∃ p rest,
      ((s.tins.getD (dropScan s).2.2 default).flows.getD (dropScan s).2.1
        default).queue = p :: rest ∧
      cake_drop s =
        some (dropResult s p rest, (dropScan s).2.1 + ((dropScan s).2.2 <<< 16)) ∧
      Wf (dropResult s p rest) ∧
      (dropResult s p rest).buffer_limit = s.buffer_limit ∧
      (dropResult s p rest).qlen + 1 = s.qlen ∧
      (∀ j k, backlogAt s j k ≤ backlogAt s (dropScan s).2.2 (dropScan s).2.1) := by
  obtain ⟨j0, k0, hjk⟩ := exists_backlogged s hwf hover
  have hge := dropScan_ge s hwf
  have hmb : 0 < (dropScan s).1 := Nat.lt_of_lt_of_le hjk (hge j0 k0)
  have hspec := dropScan_spec s
  rcases hspec with hspec | hspec
  · omega
  obtain ⟨htlt, hteq⟩ := hspec
  have htlen : (dropScan s).2.2 < s.tins.length := by
    have := hwf.1
    have := hwf.2.2.1
    omega
  have hokT := hwf.2.2.2.1 _ (getD_mem s.tins (dropScan s).2.2 default htlen)
  have hbeq : backlogAt s (dropScan s).2.2 (dropScan s).2.1 =
      flowBytes ((s.tins.getD (dropScan s).2.2 default).flows.getD
        (dropScan s).2.1 default) := by
    rw [backlogAt]
    exact backlogAt_of_tinok _ hokT.2.2.1 _
  have hqne : ((s.tins.getD (dropScan s).2.2 default).flows.getD
      (dropScan s).2.1 default).queue ≠ [] := by
    intro hc
    rw [hteq] at hbeq
    rw [flowBytes, hc] at hbeq
    simp at hbeq
    omega
  rcases hq : ((s.tins.getD (dropScan s).2.2 default).flows.getD
      (dropScan s).2.1 default).queue with _ | ⟨p, rest⟩
  · exact absurd hq hqne
  obtain ⟨hwfd, hlimd, hqlend⟩ := dropResult_wf s p rest hwf hq
  refine ⟨p, rest, rfl, ?_, hwfd, hlimd, hqlend, ?_⟩
  · simp only [cake_drop]
    rw [hq]
  · intro j k
    rw [hteq]
    exact hge j k

theorem setNth_setNth (v w : α) (i : Nat) (l : List α) :
    setNth v i (setNth w i l) = setNth v i l := by
  induction l generalizing i with
  | nil => cases i <;> rfl
  | cons x xs ih => cases i with
    | zero => rfl
    | succ n => simpa [setNth] using ih n

/-- Equal mapped lists of equal length have equal mapped reads. -/
theorem map_eq_getD {g : α → β} {l1 l2 : List α} (h : l1.map g = l2.map g)
    (hl : l1.length = l2.length) (i : Nat) (d : α) :
    g (l1.getD i d) = g (l2.getD i d) := by
  by_cases hi : i < l1.length
  · rw [← getD_map g l1 i d, ← getD_map g l2 i d, h]
  · rw [List.getD_eq_default _ _ (by omega),
      List.getD_eq_default _ _ (by omega)]

/-! ## The overlimit drop loop -/

/-- Whenever the drop loop returns, the buffer is within its limit. -/
theorem dropLoop_le (fuel : Nat) (s s2 : cake_sched_data) (n : Nat)
    (h : dropLoop fuel s = some (s2, n)) :
    s2.buffer_used ≤ s2.buffer_limit := by
  induction fuel generalizing s n with
  | zero =>
    rw [dropLoop] at h
    split at h
    · obtain ⟨rfl, rfl⟩ : s = s2 ∧ 0 = n :=
        ⟨congrArg Prod.fst (Option.some.inj h),
         congrArg Prod.snd (Option.some.inj h)⟩
      assumption
    · exact absurd h (by simp)
  | succ fuel ih =>
    rw [dropLoop] at h
    split at h
    · obtain ⟨rfl, rfl⟩ : s = s2 ∧ 0 = n :=
        ⟨congrArg Prod.fst (Option.some.inj h),
         congrArg Prod.snd (Option.some.inj h)⟩
      assumption
    · rcases hdrop : cake_drop s with _ | r
      · rw [hdrop] at h
        exact absurd h (by simp)
      · rw [hdrop] at h
        simp only [Option.some_bind] at h
        rcases hloop : dropLoop fuel r.1 with _ | r2
        · rw [hloop] at h
          exact absurd h (by simp)
        · rw [hloop] at h
          simp only [Option.map_some'] at h
          have h2 : r2.1 = s2 := congrArg Prod.fst (Option.some.inj h)
          exact ih r.1 r2.2 (by rw [hloop, ← h2])

/-- On a well-formed state with enough fuel (at least the packet count), the
drop loop succeeds and preserves well-formedness, the buffer limit and the
tin count. -/
theorem dropLoop_wf (fuel : Nat) (s : cake_sched_data) (hwf : Wf s)
    (hfuel : s.qlen ≤ fuel) :
    ∃ s2 n, dropLoop fuel s = some (s2, n) ∧ Wf s2 ∧
      s2.buffer_limit = s.buffer_limit ∧ s2.tin_cnt = s.tin_cnt := by
  induction fuel generalizing s with
  | zero =>
    by_cases hle : s.buffer_used ≤ s.buffer_limit
    · exact ⟨s, 0, by rw [dropLoop]; rw [if_pos hle], hwf, rfl, rfl⟩
    · obtain ⟨p, rest, hq, heq, hwf2, hlim, hqlen, hmax⟩ :=
        cake_drop_spec s hwf (by omega)
      omega
  | succ fuel ih =>
    by_cases hle : s.buffer_used ≤ s.buffer_limit
    · exact ⟨s, 0, by rw [dropLoop]; rw [if_pos hle], hwf, rfl, rfl⟩
    · obtain ⟨p, rest, hq, heq, hwf2, hlim, hqlen, hmax⟩ :=
        cake_drop_spec s hwf (by omega)
      obtain ⟨s3, n, hloop, hwf3, hlim3, hcnt3⟩ :=
        ih (dropResult s p rest) hwf2 (by omega)
      refine ⟨s3, n + 1, ?_, hwf3, by rw [hlim3, hlim], hcnt3.trans rfl⟩
      rw [dropLoop]
      rw [if_neg (by omega), heq]
      simp only [Option.some_bind]
      rw [hloop]
      rfl

/-! ## Appending a packet to a flow preserves tin well-formedness -/

/-- Generic tail-push lemma: if tin b2 equals tin b except that the flow at
index i gained packet p at its tail and the backlog counters grew
accordingly, with the flow lists either unchanged (flow already listed) or
extended by appending i to new_flows, then b2 is well-formed and its totals
grow by the packet's contribution. -/
theorem tinok_push_generic (b b2 : cake_tin_data) (i : Nat) (p : Packet)
    (f2 : cake_flow)
    (hok : TinOk b) (hi : i < b.flows_cnt)
    (hbnd : tinBytes b + p.len < M32)
    (hp : 1 ≤ p.len ∧ 1 ≤ p.truesize)
    (hq2 : f2.queue = (b.flows.getD i default).queue ++ [p])
    (e1 : b2.flows = setNth f2 i b.flows)
    (e2 : b2.backlogs = setNth (add32 (b.backlogs.getD i 0) p.len) i b.backlogs)
    (e3 : b2.tin_backlog = add32 b.tin_backlog p.len)
    (e4 : b2.flows_cnt = b.flows_cnt)
    (elist : (b2.new_flows = b.new_flows ∧ b2.old_flows = b.old_flows ∧
        (i ∈ b.new_flows ∨ i ∈ b.old_flows)) ∨
      (b2.new_flows = b.new_flows ++ [i] ∧ b2.old_flows = b.old_flows)) :
    TinOk b2 ∧ tinBytes b2 = tinBytes b + p.len ∧
    tinTrue b2 = tinTrue b + p.truesize ∧ tinCount b2 = tinCount b + 1 := by
  obtain ⟨k1, k2, k3, k4, k5, k6⟩ := hok
  have hi2 : i < b.flows.length := by omega
  have hfb : flowBytes f2 = flowBytes (b.flows.getD i default) + p.len := by
    unfold flowBytes
    rw [hq2]
    simp
  have hft : flowTrue f2 = flowTrue (b.flows.getD i default) + p.truesize := by
    unfold flowTrue
    rw [hq2]
    simp
  have hfc : flowCount f2 = flowCount (b.flows.getD i default) + 1 := by
    unfold flowCount
    rw [hq2]
    simp
  have hfle : flowBytes (b.flows.getD i default) ≤ tinBytes b :=
    flowBytes_le_tin b i
  have hbacklog : add32 (b.backlogs.getD i 0) p.len = flowBytes f2 := by
    rw [backlogAt_of_tinok b k3 i, add32_eq _ _ (by omega), hfb]
  have hB : tinBytes b2 + flowBytes (b.flows.getD i default) =
      tinBytes b + flowBytes f2 := by
    rw [tinBytes, tinBytes, e1]
    exact sum_map_setNth flowBytes f2 i b.flows default hi2
  have hT : tinTrue b2 + flowTrue (b.flows.getD i default) =
      tinTrue b + flowTrue f2 := by
    rw [tinTrue, tinTrue, e1]
    exact sum_map_setNth flowTrue f2 i b.flows default hi2
  have hC : tinCount b2 + flowCount (b.flows.getD i default) =
      tinCount b + flowCount f2 := by
    rw [tinCount, tinCount, e1]
    exact sum_map_setNth flowCount f2 i b.flows default hi2
  refine ⟨⟨?_, by omega, ?_, ?_, ?_, ?_⟩, by omega, by omega, by omega⟩
  · rw [e1, length_setNth, k1, e4]
  · rw [e2, e1, map_setNth, hbacklog, k3]
  · rw [e3, k4, add32_eq _ _ (by omega)]
    omega
  · intro i2 hi2r hne
    rw [e1, length_setNth] at hi2r
    by_cases hii : i2 = i
    · subst hii
      rcases elist with ⟨en, eo, hl⟩ | ⟨en, eo⟩
      · rw [en, eo]
        exact hl
      · rw [en]
        left
        simp
    · rw [e1, getD_setNth_ne _ _ _ _ _ hii] at hne
      have := k5 i2 hi2r hne
      rcases elist with ⟨en, eo, _⟩ | ⟨en, eo⟩
      · rw [en, eo]
        exact this
      · rw [en, eo]
        rcases this with h | h
        · exact Or.inl (by simp [h])
        · exact Or.inr h
  · intro f hf q hqf
    rw [e1] at hf
    rcases mem_setNth _ _ _ _ hf with hf | hf
    · subst hf
      rw [hq2] at hqf
      rcases List.mem_append.mp hqf with hqf | hqf
      · exact k6 _ (getD_mem _ i default hi2) q hqf
      · rw [List.mem_singleton.mp hqf]
        exact hp
    · exact k6 f hf q hqf

/-- tin_insert: the effect of the insertion step of cake_enqueue on one tin.
Well-formedness is preserved, the totals grow by the packet, and when the
flow was detached it is appended to the tail of new_flows with a fresh
deficit of one tin quantum. -/
theorem tinok_insert (b : cake_tin_data) (p : Packet) (i : Nat)
    (hok : TinOk b) (hi : i < b.flows_cnt)
    (hbnd : tinBytes b + p.len < M32)
    (hp : 1 ≤ p.len ∧ 1 ≤ p.truesize) :
    TinOk (tin_insert b p i) ∧
    tinBytes (tin_insert b p i) = tinBytes b + p.len ∧
    tinTrue (tin_insert b p i) = tinTrue b + p.truesize ∧
    tinCount (tin_insert b p i) = tinCount b + 1 ∧
    (tin_insert b p i).flows_cnt = b.flows_cnt ∧
    (tin_insert b p i).quantum = b.quantum ∧
    ((i ∈ b.new_flows ∨ i ∈ b.old_flows) →
      (tin_insert b p i).new_flows = b.new_flows ∧
      ∀ i2, ((tin_insert b p i).flows.getD i2 default).deficit =
        ((b.flows.getD i2 default)).deficit) ∧
    (¬(i ∈ b.new_flows ∨ i ∈ b.old_flows) →
      (tin_insert b p i).new_flows = b.new_flows ++ [i] ∧
      ((tin_insert b p i).flows.getD i default).deficit = (b.quantum : Int)) := by
  have hi2 : i < b.flows.length := by
    have := hok.1
    omega
  by_cases hlist : i ∈ b.new_flows ∨ i ∈ b.old_flows
  · have hred : tin_insert b p i =
        { b with
          flows := setNth
            { b.flows.getD i default with
              queue := (b.flows.getD i default).queue ++ [p] } i b.flows
          packets := add32 b.packets 1
          bytes := add64 b.bytes p.len
          backlogs := setNth (add32 (b.backlogs.getD i 0) p.len) i b.backlogs
          tin_backlog := add32 b.tin_backlog p.len } := by
      simp only [tin_insert]
      rw [if_pos hlist]
    rw [hred]
    have hgen := tinok_push_generic b
      { b with
        flows := setNth
          { b.flows.getD i default with
            queue := (b.flows.getD i default).queue ++ [p] } i b.flows
        packets := add32 b.packets 1
        bytes := add64 b.bytes p.len
        backlogs := setNth (add32 (b.backlogs.getD i 0) p.len) i b.backlogs
        tin_backlog := add32 b.tin_backlog p.len }
      i p
      { b.flows.getD i default with
        queue := (b.flows.getD i default).queue ++ [p] }
      hok hi hbnd hp rfl rfl rfl rfl rfl (Or.inl ⟨rfl, rfl, hlist⟩)
    refine ⟨hgen.1, hgen.2.1, hgen.2.2.1, hgen.2.2.2, rfl, rfl, ?_, ?_⟩
    · intro _
      refine ⟨rfl, fun i2 => ?_⟩
      by_cases hii : i2 = i
      · subst hii
        rw [getD_setNth_self _ _ _ _ hi2]
      · rw [getD_setNth_ne _ _ _ _ _ hii]
    · intro hc
      exact absurd hlist hc
  · have hred : tin_insert b p i =
        { b with
          flows := setNth
            { b.flows.getD i default with
              queue := (b.flows.getD i default).queue ++ [p]
              deficit := (b.quantum : Int)
              dropped := 0 } i b.flows
          packets := add32 b.packets 1
          bytes := add64 b.bytes p.len
          backlogs := setNth (add32 (b.backlogs.getD i 0) p.len) i b.backlogs
          tin_backlog := add32 b.tin_backlog p.len
          new_flows := b.new_flows ++ [i] } := by
      simp only [tin_insert]
      rw [if_neg hlist]
      rw [getD_setNth_self _ _ _ _ hi2, setNth_setNth]
    rw [hred]
    have hgen := tinok_push_generic b
      { b with
        flows := setNth
          { b.flows.getD i default with
            queue := (b.flows.getD i default).queue ++ [p]
            deficit := (b.quantum : Int)
            dropped := 0 } i b.flows
        packets := add32 b.packets 1
        bytes := add64 b.bytes p.len
        backlogs := setNth (add32 (b.backlogs.getD i 0) p.len) i b.backlogs
        tin_backlog := add32 b.tin_backlog p.len
        new_flows := b.new_flows ++ [i] }
      i p
      { b.flows.getD i default with
        queue := (b.flows.getD i default).queue ++ [p]
        deficit := (b.quantum : Int)
        dropped := 0 }
      hok hi hbnd hp rfl rfl rfl rfl rfl (Or.inr ⟨rfl, rfl⟩)
    refine ⟨hgen.1, hgen.2.1, hgen.2.2.1, hgen.2.2.2, rfl, rfl, ?_, ?_⟩
    · intro hc
      exact absurd hc hlist
    · intro _
      exact ⟨rfl, by rw [getD_setNth_self _ _ _ _ hi2]⟩

theorem setNth_ge (v : α) (i : Nat) (l : List α) (h : l.length ≤ i) :
    setNth v i l = l := by
  induction l generalizing i with
  | nil => cases i <;> rfl
  | cons x xs ih =>
    cases i with
    | zero => simp at h
    | succ n => simpa [setNth] using ih n (by simpa using h)

/-- Replacing an element by one with the same image leaves a mapped list
unchanged. -/
theorem map_setNth_eq (g : α → β) (l : List α) (i : Nat) (v : α) (d : α)
    (h : g v = g (l.getD i d)) : (setNth v i l).map g = l.map g := by
  by_cases hi : i < l.length
  · rw [map_setNth, h,
      show g (l.getD i d) = (l.map g).getD i (g d) from (getD_map g l i d).symm]
    exact setNth_getD_self _ _ _
  · rw [setNth_ge _ _ _ (by omega)]

/-! ## Replacing one tin of a well-formed scheduler -/

/-- Replacing tin t (below tin_cnt) by a well-formed tin with equal totals
preserves engine well-formedness and all global totals.  Stated through
field equations so it applies to any record constructed by the operations. -/
theorem wf_replace_tin (s s2 : cake_sched_data) (t : Nat)
    (b2 : cake_tin_data) (hwf : Wf s) (htc : t < s.tin_cnt)
    (e1 : s2.tins = setNth b2 t s.tins)
    (e2 : s2.tin_cnt = s.tin_cnt) (e3 : s2.qlen = s.qlen)
    (e4 : s2.qstats_backlog = s.qstats_backlog)
    (e5 : s2.buffer_used = s.buffer_used)
    (hok2 : TinOk b2)
    (hB : tinBytes b2 = tinBytes (s.tins.getD t default))
    (hT : tinTrue b2 = tinTrue (s.tins.getD t default))
    (hC : tinCount b2 = tinCount (s.tins.getD t default)) :
    Wf s2 ∧ totalBytes s2 = totalBytes s ∧ totalTrue s2 = totalTrue s ∧
    totalCount s2 = totalCount s := by
  obtain ⟨h1, h2, h3, h4, h5, h6, h7, h8, h9, h10, h11⟩ := hwf
  have ht : t < s.tins.length := by omega
  have htB := sum_map_setNth tinBytes b2 t s.tins default ht
  have htT := sum_map_setNth tinTrue b2 t s.tins default ht
  have htC := sum_map_setNth tinCount b2 t s.tins default ht
  have hTB : totalBytes s2 = totalBytes s := by
    unfold totalBytes
    rw [e1]
    omega
  have hTT : totalTrue s2 = totalTrue s := by
    unfold totalTrue
    rw [e1]
    omega
  have hTC : totalCount s2 = totalCount s := by
    unfold totalCount
    rw [e1]
    omega
  refine ⟨⟨?_, by omega, by omega, ?_, ?_, ?_, ?_, by omega, by omega,
    by omega, ?_⟩, hTB, hTT, hTC⟩
  · rw [e1, length_setNth, h1]
  · intro b hb
    rw [e1] at hb
    rcases mem_setNth _ _ _ _ hb with hb | hb
    · rw [hb]
      exact hok2
    · exact h4 b hb
  · rw [e4, hTB, h5]
  · rw [e5, hTT, h6]
  · rw [e3, hTC, h7]
  · intro b hb
    rw [e1, e2, drop_setNth_lt _ _ _ _ htc] at hb
    exact h11 b hb

/-! ## The stale-shaper refresh of cake_enqueue -/

theorem touch_wf (s : cake_sched_data) (now t : Nat) (hwf : Wf s)
    (htc : t < s.tin_cnt) :
    Wf (cake_enqueue_touch s now t) ∧
    totalBytes (cake_enqueue_touch s now t) = totalBytes s ∧
    totalTrue (cake_enqueue_touch s now t) = totalTrue s ∧
    totalCount (cake_enqueue_touch s now t) = totalCount s ∧
    (cake_enqueue_touch s now t).tins.map tinCore = s.tins.map tinCore ∧
    (cake_enqueue_touch s now t).tins.length = s.tins.length ∧
    (cake_enqueue_touch s now t).tin_cnt = s.tin_cnt ∧
    (cake_enqueue_touch s now t).qlen = s.qlen ∧
    (cake_enqueue_touch s now t).qstats_backlog = s.qstats_backlog ∧
    (cake_enqueue_touch s now t).buffer_used = s.buffer_used ∧
    (cake_enqueue_touch s now t).buffer_limit = s.buffer_limit := by
  have ht : t < s.tins.length := by
    obtain ⟨h1, h2, h3⟩ := hwf
    omega
  have hok : TinOk (s.tins.getD t default) :=
    hwf.2.2.2.1 _ (getD_mem s.tins t default ht)
  unfold cake_enqueue_touch
  by_cases hb : (s.tins.getD t default).tin_backlog = 0
  · rw [if_pos hb]
    by_cases hn : (s.tins.getD t default).tin_time_next_packet < now
    · rw [if_pos hn]
      have hrep := wf_replace_tin s
        ({ s with
          tins := setNth { s.tins.getD t default with
            tin_time_next_packet := now } t s.tins } : cake_sched_data) t
        { s.tins.getD t default with tin_time_next_packet := now }
        hwf htc rfl rfl rfl rfl rfl hok rfl rfl rfl
      exact ⟨hrep.1, hrep.2.1, hrep.2.2.1, hrep.2.2.2,
        map_setNth_eq tinCore s.tins t _ default rfl,
        length_setNth _ _ _, rfl, rfl, rfl, rfl, rfl⟩
    · rw [if_neg hn]
      rw [setNth_getD_self s.tins t default]
      exact ⟨hwf, rfl, rfl, rfl, rfl, rfl, rfl, rfl, rfl, rfl, rfl⟩
  · rw [if_neg hb]
    exact ⟨hwf, rfl, rfl, rfl, rfl, rfl, rfl, rfl, rfl, rfl, rfl⟩

/-! ## Full cake_enqueue -/

/-- The tin chosen by cake_enqueue is always below tin_cnt. -/
theorem enqTin_lt (s : cake_sched_data) (p : Packet) (h : 1 ≤ s.tin_cnt) :
    enqTin s p < s.tin_cnt := by
  unfold enqTin
  split
  · dsimp only
    split <;> omega
  · omega

/-- The flow index chosen by cake_enqueue is inside the tin's flow table. -/
theorem enqIdx_lt (s : cake_sched_data) (p : Packet) (hh : p.hash < M32)
    (hfc : 1 ≤ (s.tins.getD (enqTin s p) default).flows_cnt) :
    enqIdx s p < (s.tins.getD (enqTin s p) default).flows_cnt := by
  unfold enqIdx cake_hash
  split
  · omega
  · apply Nat.div_lt_of_lt_mul
    exact Nat.mul_lt_mul_of_pos_right hh (by omega)

/-- The insertion step of cake_enqueue on a well-formed scheduler: the
result is well-formed and every total grows by the new packet. -/
theorem insert_wf (s : cake_sched_data) (p : Packet) (t i : Nat)
    (hwf : Wf s) (hroom : Room s p) (htc : t < s.tin_cnt)
    (hi : i < (s.tins.getD t default).flows_cnt) :
    Wf (cake_enqueue_insert s p t i) ∧
    totalBytes (cake_enqueue_insert s p t i) = totalBytes s + p.len ∧
    totalTrue (cake_enqueue_insert s p t i) = totalTrue s + p.truesize ∧
    totalCount (cake_enqueue_insert s p t i) = totalCount s + 1 ∧
    (cake_enqueue_insert s p t i).tin_cnt = s.tin_cnt ∧
    (cake_enqueue_insert s p t i).buffer_limit = s.buffer_limit ∧
    (cake_enqueue_insert s p t i).qlen = add32 s.qlen 1 := by
  obtain ⟨h1, h2, h3, h4, h5, h6, h7, h8, h9, h10, h11⟩ := hwf
  obtain ⟨r1, r2, r3, r4, r5, r6⟩ := hroom
  have ht : t < s.tins.length := by omega
  have hok : TinOk (s.tins.getD t default) :=
    h4 _ (getD_mem s.tins t default ht)
  have hbtot : tinBytes (s.tins.getD t default) ≤ totalBytes s :=
    tinBytes_le_total s t
  have httot : tinTrue (s.tins.getD t default) ≤ totalTrue s :=
    tinTrue_le_total s t
  have hctot : tinCount (s.tins.getD t default) ≤ totalCount s :=
    tinCount_le_total s t
  obtain ⟨hok2, hB, hT, hC, _, _, _, _⟩ :=
    tinok_insert (s.tins.getD t default) p i hok hi (by omega) ⟨r1, r2⟩
  have htB := sum_map_setNth tinBytes (tin_insert (s.tins.getD t default) p i)
    t s.tins default ht
  have htT := sum_map_setNth tinTrue (tin_insert (s.tins.getD t default) p i)
    t s.tins default ht
  have htC := sum_map_setNth tinCount (tin_insert (s.tins.getD t default) p i)
    t s.tins default ht
  have hTB : totalBytes (cake_enqueue_insert s p t i) = totalBytes s + p.len := by
    show ((setNth (tin_insert (s.tins.getD t default) p i) t s.tins).map
      tinBytes).sum = totalBytes s + p.len
    unfold totalBytes
    omega
  have hTT : totalTrue (cake_enqueue_insert s p t i) = totalTrue s + p.truesize := by
    show ((setNth (tin_insert (s.tins.getD t default) p i) t s.tins).map
      tinTrue).sum = totalTrue s + p.truesize
    unfold totalTrue
    omega
  have hTC : totalCount (cake_enqueue_insert s p t i) = totalCount s + 1 := by
    show ((setNth (tin_insert (s.tins.getD t default) p i) t s.tins).map
      tinCount).sum = totalCount s + 1
    unfold totalCount
    omega
  refine ⟨⟨?_, ?_, ?_, ?_, ?_, ?_, ?_, ?_, ?_, ?_, ?_⟩,
    hTB, hTT, hTC, rfl, rfl, rfl⟩
  · exact (length_setNth _ t s.tins).trans h1
  · show 1 ≤ s.tin_cnt
    omega
  · show s.tin_cnt ≤ 8
    omega
  · intro b hb
    rcases mem_setNth _ _ _ _ hb with hb | hb
    · rw [hb]
      exact hok2
    · exact h4 b hb
  · show add32 s.qstats_backlog p.len = totalBytes (cake_enqueue_insert s p t i)
    rw [add32_eq _ _ (by omega), hTB, h5]
  · show add32 s.buffer_used p.truesize = totalTrue (cake_enqueue_insert s p t i)
    rw [add32_eq _ _ (by omega), hTT, h6]
  · show add32 s.qlen 1 = totalCount (cake_enqueue_insert s p t i)
    rw [add32_eq _ _ (by omega), hTC, h7]
  · rw [hTB]
    omega
  · rw [hTT]
    omega
  · rw [hTC]
    omega
  · intro b hb
    apply h11 b
    have : (cake_enqueue_insert s p t i).tins.drop s.tin_cnt =
        s.tins.drop s.tin_cnt :=
      drop_setNth_lt _ _ _ _ htc
    rw [show (cake_enqueue_insert s p t i).tin_cnt = s.tin_cnt from rfl,
      this] at hb
    exact hb

/-- cake_enqueue on a well-formed scheduler with headroom: the enqueue
succeeds, the result is well-formed, and the buffer is within its limit on
return. -/
theorem cake_enqueue_spec (s : cake_sched_data) (p : Packet) (now : Nat)
    (hwf : Wf s) (hroom : Room s p) :
    ∃ s2, cake_enqueue s p now = some s2 ∧ Wf s2 ∧
      s2.buffer_used ≤ s2.buffer_limit := by
  have htc : enqTin s p < s.tin_cnt := enqTin_lt s p hwf.2.1
  have ht : enqTin s p < s.tins.length := by
    have := hwf.2.2.1
    have := hwf.1
    omega
  have hokt : TinOk (s.tins.getD (enqTin s p) default) :=
    hwf.2.2.2.1 _ (getD_mem s.tins (enqTin s p) default ht)
  have hi : enqIdx s p < (s.tins.getD (enqTin s p) default).flows_cnt :=
    enqIdx_lt s p hroom.2.2.1 hokt.2.1
  obtain ⟨hwf1, htb1, htt1, htc1, hcore1, hlen1, hcnt1, hqlen1, hqs1, hbu1,
    hbl1⟩ := touch_wf s now (enqTin s p) hwf htc
  set s1 := cake_enqueue_touch s now (enqTin s p) with hs1
  -- the touched state still has the packet's room and the same tin shape
  have hroom1 : Room s1 p := by
    obtain ⟨r1, r2, r3, r4, r5, r6⟩ := hroom
    exact ⟨r1, r2, r3, by omega, by omega, by omega⟩
  have hcore_t : tinCore (s1.tins.getD (enqTin s p) default) =
      tinCore (s.tins.getD (enqTin s p) default) :=
    map_eq_getD hcore1 hlen1 (enqTin s p) default
  have hfc1 : (s1.tins.getD (enqTin s p) default).flows_cnt =
      (s.tins.getD (enqTin s p) default).flows_cnt := by
    have h2 := congrArg cake_tin_data.flows_cnt hcore_t
    simpa [tinCore] using h2
  have htc1' : enqTin s p < s1.tin_cnt := by omega
  obtain ⟨hwf2, htb2, htt2, htc2, hcnt2, hbl2, hqlen2⟩ :=
    insert_wf s1 p (enqTin s p) (enqIdx s p) hwf1 hroom1 htc1'
      (by rw [hfc1]; exact hi)
  set s2 := cake_enqueue_insert s1 p (enqTin s p) (enqIdx s p) with hs2
  have hfuel : s2.qlen ≤ s2.qlen := Nat.le_refl _
  obtain ⟨s3, n, hloop, hwf3, hbl3, hcnt3⟩ := dropLoop_wf s2.qlen s2 hwf2 hfuel
  have hle3 : s3.buffer_used ≤ s3.buffer_limit :=
    dropLoop_le s2.qlen s2 s3 n hloop
  have ht3 : enqTin s p < s3.tins.length := by
    have := hwf3.1
    omega
  have htc3 : enqTin s p < s3.tin_cnt := by omega
  have hok3 : TinOk (s3.tins.getD (enqTin s p) default) :=
    hwf3.2.2.2.1 _ (getD_mem s3.tins (enqTin s p) default ht3)
  have hrep := wf_replace_tin s3
    ({ s3 with
      tins := setNth
        { s3.tins.getD (enqTin s p) default with
          drop_overlimit :=
            add32 (s3.tins.getD (enqTin s p) default).drop_overlimit n }
        (enqTin s p) s3.tins } : cake_sched_data)
    (enqTin s p)
    { s3.tins.getD (enqTin s p) default with
      drop_overlimit :=
        add32 (s3.tins.getD (enqTin s p) default).drop_overlimit n }
    hwf3 htc3 rfl rfl rfl rfl rfl hok3 rfl rfl rfl
  refine ⟨_, ?_, hrep.1, hle3⟩
  show cake_enqueue s p now = some _
  simp only [cake_enqueue]
  rw [← hs1, ← hs2, hloop]
  rfl

/-! ## custom_dequeue and the qdisc-boundary dequeue -/

/-- Popping the head of the cursor flow preserves well-formedness (the
none case leaves the state untouched). -/
theorem cake_dequeue_one_wf (s : cake_sched_data) (hwf : Wf s) :
    Wf (cake_dequeue_one s).2 := by
  rcases hq : ((s.tins.getD s.cur_tin default).flows.getD s.cur_flow
      default).queue with _ | ⟨p, rest⟩
  · have hred : cake_dequeue_one s = (none, s) := by
      unfold cake_dequeue_one custom_dequeue
      rw [hq]
    rw [hred]
    exact hwf
  · have hred : cake_dequeue_one s =
        (some p, { dequeueResult s p rest with
          qstats_backlog := sub32 (dequeueResult s p rest).qstats_backlog
            p.len }) := by
      simp only [cake_dequeue_one, custom_dequeue]
      rw [hq]
    rw [hred]
    obtain ⟨h1, h2, h3, h4, h5, h6, h7, h8, h9, h10, h11⟩ := hwf
    have htlen : s.cur_tin < s.tins.length := by
      by_contra hc
      have hdef : s.tins.getD s.cur_tin default = default :=
        List.getD_eq_default _ _ (by omega)
      have hznil : ((default : cake_tin_data).flows.getD s.cur_flow
          default).queue = ([] : List Packet) := rfl
      rw [hdef, hznil] at hq
      exact absurd hq (by simp)
    have hokT := h4 _ (getD_mem s.tins s.cur_tin default htlen)
    have hiT : s.cur_flow < (s.tins.getD s.cur_tin default).flows.length := by
      by_contra hc
      have hdef : (s.tins.getD s.cur_tin default).flows.getD s.cur_flow
          default = default := List.getD_eq_default _ _ (by omega)
      rw [hdef, show (default : cake_flow).queue = ([] : List Packet)
        from rfl] at hq
      exact absurd hq (by simp)
    have htlt : s.cur_tin < s.tin_cnt := by
      by_contra hc
      have hmem := getD_mem_drop s.tins s.tin_cnt s.cur_tin default
        (by omega) htlen
      have := h11 _ hmem _ (getD_mem _ s.cur_flow default hiT)
      rw [hq] at this
      exact absurd this (by simp)
    have hpop := tinok_pop_generic
      (s.tins.getD s.cur_tin default)
      ((dequeueResult s p rest).tins.getD s.cur_tin default)
      s.cur_flow p rest
      { (s.tins.getD s.cur_tin default).flows.getD s.cur_flow default with
        queue := rest }
      hokT hq rfl
      (Nat.lt_of_le_of_lt (tinBytes_le_total s _) h8)
      (by
        rw [dequeueResult]
        rw [getD_setNth_self _ _ _ _ htlen])
      (by
        rw [dequeueResult]
        rw [getD_setNth_self _ _ _ _ htlen])
      (by
        rw [dequeueResult]
        rw [getD_setNth_self _ _ _ _ htlen])
      (by
        rw [dequeueResult]
        rw [getD_setNth_self _ _ _ _ htlen])
      (by
        rw [dequeueResult]
        rw [getD_setNth_self _ _ _ _ htlen])
      (by
        rw [dequeueResult]
        rw [getD_setNth_self _ _ _ _ htlen])
    obtain ⟨hok2, hB, hT, hC, hp1, hp2⟩ := hpop
    have htins : (dequeueResult s p rest).tins =
        setNth ((dequeueResult s p rest).tins.getD s.cur_tin default)
          s.cur_tin s.tins := by
      rw [dequeueResult]
      rw [getD_setNth_self _ _ _ _ htlen]
    have htot := sched_pop_totals s (dequeueResult s p rest) s.cur_tin
      ((dequeueResult s p rest).tins.getD s.cur_tin default) p
      htins htlen hB hT hC
    obtain ⟨htB, htT, htC⟩ := htot
    refine ⟨?_, h2, h3, ?_, ?_, ?_, ?_,
      (by show totalBytes (dequeueResult s p rest) < M32; omega),
      (by show totalTrue (dequeueResult s p rest) < M32; omega),
      (by show totalCount (dequeueResult s p rest) < M32; omega), ?_⟩
    · rw [show ({ dequeueResult s p rest with
          qstats_backlog := sub32 (dequeueResult s p rest).qstats_backlog
            p.len } : cake_sched_data).tins = (dequeueResult s p rest).tins
        from rfl, htins, length_setNth, h1]
    · intro b hb
      rw [show ({ dequeueResult s p rest with
          qstats_backlog := sub32 (dequeueResult s p rest).qstats_backlog
            p.len } : cake_sched_data).tins = (dequeueResult s p rest).tins
        from rfl, htins] at hb
      rcases mem_setNth _ _ _ _ hb with hb | hb
      · rw [hb]; exact hok2
      · exact h4 b hb
    · show sub32 s.qstats_backlog p.len = totalBytes (dequeueResult s p rest)
      rw [h5, sub32_eq _ _ (by omega) h8]
      omega
    · show sub32 s.buffer_used p.truesize = totalTrue (dequeueResult s p rest)
      rw [h6, sub32_eq _ _ (by omega) h9]
      omega
    · show sub32 s.qlen 1 = totalCount (dequeueResult s p rest)
      rw [h7, sub32_eq _ _ (by omega) h10]
      omega
    · intro b hb
      apply h11 b
      have hdrop_eq : (dequeueResult s p rest).tins.drop s.tin_cnt =
          s.tins.drop s.tin_cnt := by
        rw [htins]
        exact drop_setNth_lt _ _ _ _ htlt
      rw [show ({ dequeueResult s p rest with
          qstats_backlog := sub32 (dequeueResult s p rest).qstats_backlog
            p.len } : cake_sched_data).tin_cnt = s.tin_cnt from rfl,
        show ({ dequeueResult s p rest with
          qstats_backlog := sub32 (dequeueResult s p rest).qstats_backlog
            p.len } : cake_sched_data).tins = (dequeueResult s p rest).tins
        from rfl, hdrop_eq] at hb
      exact hb

/-! ## Skeleton preservation through custom_dequeue and the reset chain -/

/-- Replacing a flow by one with the same deficit leaves a tin's skeleton
unchanged. -/
theorem tinSkel_set_flow (b b2 : cake_tin_data) (i : Nat) (f2 : cake_flow)
    (e1 : b2.flows = setNth f2 i b.flows)
    (e2 : b2.new_flows = b.new_flows) (e3 : b2.old_flows = b.old_flows)
    (e4 : b2.tin_deficit = b.tin_deficit)
    (e5 : b2.tin_time_next_packet = b.tin_time_next_packet)
    (hdef : f2.deficit = (b.flows.getD i default).deficit) :
    tinSkel b2 = tinSkel b := by
  unfold tinSkel
  rw [e1, e2, e3, e4, e5,
    map_setNth_eq cake_flow.deficit b.flows i f2 default hdef]

/-- Replacing a flow by one with the same deficit leaves a tin's list state
unchanged. -/
theorem tinLists_set_flow (b b2 : cake_tin_data) (i : Nat) (f2 : cake_flow)
    (e1 : b2.flows = setNth f2 i b.flows)
    (e2 : b2.new_flows = b.new_flows) (e3 : b2.old_flows = b.old_flows)
    (e4 : b2.quantum = b.quantum)
    (hdef : f2.deficit = (b.flows.getD i default).deficit) :
    tinLists b2 = tinLists b := by
  unfold tinLists
  rw [e1, e2, e3, e4,
    map_setNth_eq cake_flow.deficit b.flows i f2 default hdef]

/-- custom_dequeue does not change the scheduler skeleton: flow lists,
deficits, shaper clocks, the reported backlog and the CoDel parameters. -/
theorem custom_dequeue_skel (s : cake_sched_data) :
    schedSkel (custom_dequeue s).2 = schedSkel s := by
  rcases hq : ((s.tins.getD s.cur_tin default).flows.getD s.cur_flow
      default).queue with _ | ⟨p, rest⟩
  · simp only [custom_dequeue]
    rw [hq]
  · simp only [custom_dequeue]
    rw [hq]
    show schedSkel (dequeueResult s p rest) = schedSkel s
    unfold schedSkel
    have htins : (dequeueResult s p rest).tins.map tinSkel =
        s.tins.map tinSkel := by
      refine map_setNth_eq tinSkel s.tins s.cur_tin _ default ?_
      exact tinSkel_set_flow (s.tins.getD s.cur_tin default) _ s.cur_flow
        { (s.tins.getD s.cur_tin default).flows.getD s.cur_flow default with
          queue := rest } rfl rfl rfl rfl rfl rfl
    rw [htins]
    rfl

theorem drainLoopN_proj {γ : Type} (g : cake_sched_data → γ)
    (hcd : ∀ s, g (custom_dequeue s).2 = g s) :
    ∀ (n : Nat) (s : cake_sched_data), g (drainLoopN n s) = g s := by
  intro n
  induction n with
  | zero => intro s; rfl
  | succ n ih =>
    intro s
    rw [drainLoopN]
    rcases hcd2 : custom_dequeue s with ⟨o, s2⟩
    rcases o with _ | p
    · have := hcd s
      rw [hcd2] at this
      exact this
    · have := hcd s
      rw [hcd2] at this
      exact (ih s2).trans this

theorem clearFlows_proj {γ : Type} (g : cake_sched_data → γ)
    (hcd : ∀ s, g (custom_dequeue s).2 = g s)
    (hcf : ∀ (s : cake_sched_data) (v : Nat), g { s with cur_flow := v } = g s) :
    ∀ (s : cake_sched_data) (n : Nat), g (clearFlows s n) = g s := by
  intro s n
  induction n with
  | zero => rfl
  | succ n ih =>
    show g (drainFlow { clearFlows s n with cur_flow := n }) = g s
    unfold drainFlow
    rw [drainLoopN_proj g hcd, hcf, ih]

theorem clear_tin_proj {γ : Type} (g : cake_sched_data → γ)
    (hcd : ∀ s, g (custom_dequeue s).2 = g s)
    (hcf : ∀ (s : cake_sched_data) (v : Nat), g { s with cur_flow := v } = g s)
    (hct : ∀ (s : cake_sched_data) (v : Nat), g { s with cur_tin := v } = g s) :
    ∀ (s : cake_sched_data) (t : Nat), g (cake_clear_tin s t) = g s := by
  intro s t
  show g { clearFlows { s with cur_tin := t } _ with cur_flow := _ } = g s
  rw [hcf, clearFlows_proj g hcd hcf, hct]

theorem cake_reset_proj {γ : Type} (g : cake_sched_data → γ)
    (hcd : ∀ s, g (custom_dequeue s).2 = g s)
    (hcf : ∀ (s : cake_sched_data) (v : Nat), g { s with cur_flow := v } = g s)
    (hct : ∀ (s : cake_sched_data) (v : Nat), g { s with cur_tin := v } = g s) :
    ∀ (s : cake_sched_data), g (cake_reset s) = g s := by
  have hres : ∀ (n : Nat) (s : cake_sched_data), g (resetTins s n) = g s := by
    intro n
    induction n with
    | zero => intro s; rfl
    | succ n ih =>
      intro s
      show g (cake_clear_tin (resetTins s n) n) = g s
      rw [clear_tin_proj g hcd hcf hct, ih]
  intro s
  exact hres 8 s

/-- cake_reset preserves the scheduler skeleton: the flow lists, all DRR
deficits, the shaper clocks, the reported backlog counter and the CoDel
parameters survive a reset. -/
theorem cake_reset_skel (s : cake_sched_data) :
    schedSkel (cake_reset s) = schedSkel s :=
  cake_reset_proj schedSkel custom_dequeue_skel (fun _ _ => rfl)
    (fun _ _ => rfl) s

/-! ## cake_reset empties every flow queue -/

/-- custom_dequeue acts only on the cursor flow; every other flow is
untouched, and the cursor and array dimensions are preserved. -/
theorem dequeueResult_frame (s : cake_sched_data) (p : Packet)
    (rest : List Packet) :
    (∀ t i, ¬(t = s.cur_tin ∧ i = s.cur_flow) →
      flowAt (dequeueResult s p rest) t i = flowAt s t i) ∧
    (dequeueResult s p rest).cur_tin = s.cur_tin ∧
    (dequeueResult s p rest).cur_flow = s.cur_flow ∧
    (dequeueResult s p rest).tins.length = s.tins.length ∧
    (∀ t, ((dequeueResult s p rest).tins.getD t default).flows.length =
      (s.tins.getD t default).flows.length ∧
      ((dequeueResult s p rest).tins.getD t default).flows_cnt =
      (s.tins.getD t default).flows_cnt) := by
  obtain ⟨B, hB, hBlen, hBcnt, hBother⟩ :
      ∃ B : cake_tin_data,
        (dequeueResult s p rest).tins = setNth B s.cur_tin s.tins ∧
        B.flows.length = (s.tins.getD s.cur_tin default).flows.length ∧
        B.flows_cnt = (s.tins.getD s.cur_tin default).flows_cnt ∧
        (∀ i, i ≠ s.cur_flow → B.flows.getD i default =
          (s.tins.getD s.cur_tin default).flows.getD i default) :=
    ⟨_, rfl, length_setNth _ _ _, rfl,
      fun i hi => getD_setNth_ne _ _ _ _ _ hi⟩
  refine ⟨?_, rfl, rfl, by rw [hB]; exact length_setNth _ _ _, ?_⟩
  · intro t i hne
    unfold flowAt
    rw [hB]
    by_cases htt : t = s.cur_tin
    · rw [htt]
      by_cases hlt : s.cur_tin < s.tins.length
      · rw [getD_setNth_self _ _ _ _ hlt]
        have hii : i ≠ s.cur_flow := by
          intro hc
          exact hne ⟨htt, hc⟩
        exact hBother i hii
      · rw [setNth_ge _ _ _ (by omega)]
    · rw [getD_setNth_ne _ _ _ _ _ htt]
  · intro t
    rw [hB]
    by_cases htt : t = s.cur_tin
    · rw [htt]
      by_cases hlt : s.cur_tin < s.tins.length
      · rw [getD_setNth_self _ _ _ _ hlt]
        exact ⟨hBlen, hBcnt⟩
      · rw [setNth_ge _ _ _ (by omega)]
        exact ⟨rfl, rfl⟩
    · rw [getD_setNth_ne _ _ _ _ _ htt]
      exact ⟨rfl, rfl⟩

/-- Draining the cursor flow empties exactly that flow queue and leaves
every other flow, the cursor and the array dimensions unchanged. -/
theorem drainLoopN_spec :
    ∀ (n : Nat) (s : cake_sched_data),
    (flowAt s s.cur_tin s.cur_flow).queue.length ≤ n →
    (flowAt (drainLoopN n s) s.cur_tin s.cur_flow).queue = [] ∧
    (drainLoopN n s).cur_tin = s.cur_tin ∧
    (drainLoopN n s).cur_flow = s.cur_flow ∧
    (∀ t i, ¬(t = s.cur_tin ∧ i = s.cur_flow) →
      flowAt (drainLoopN n s) t i = flowAt s t i) ∧
    (drainLoopN n s).tins.length = s.tins.length ∧
    (∀ t, ((drainLoopN n s).tins.getD t default).flows.length =
      (s.tins.getD t default).flows.length ∧
      ((drainLoopN n s).tins.getD t default).flows_cnt =
      (s.tins.getD t default).flows_cnt) := by
  intro n
  induction n with
  | zero =>
    intro s hlen
    have : (flowAt s s.cur_tin s.cur_flow).queue = [] :=
      List.eq_nil_of_length_eq_zero (by omega)
    exact ⟨this, rfl, rfl, fun _ _ _ => rfl, rfl, fun _ => ⟨rfl, rfl⟩⟩
  | succ n ih =>
    intro s hlen
    rcases hq : ((s.tins.getD s.cur_tin default).flows.getD s.cur_flow
        default).queue with _ | ⟨p, rest⟩
    · have hred : drainLoopN (n + 1) s = s := by
        rw [drainLoopN]
        rw [show custom_dequeue s = (none, s) from by
          simp only [custom_dequeue]; rw [hq]]
      rw [hred]
      exact ⟨hq, rfl, rfl, fun _ _ _ => rfl, rfl, fun _ => ⟨rfl, rfl⟩⟩
    · -- in-range indices, as the cursor flow is non-empty
      have ht : s.cur_tin < s.tins.length := by
        by_contra hc
        have hdef : s.tins.getD s.cur_tin default = default :=
          List.getD_eq_default _ _ (by omega)
        have hznil : ((default : cake_tin_data).flows.getD s.cur_flow
            default).queue = ([] : List Packet) := rfl
        rw [hdef, hznil] at hq
        exact absurd hq (by simp)
      have hi : s.cur_flow < (s.tins.getD s.cur_tin default).flows.length := by
        by_contra hc
        have hdef : (s.tins.getD s.cur_tin default).flows.getD s.cur_flow
            default = default := List.getD_eq_default _ _ (by omega)
        rw [hdef, show (default : cake_flow).queue = ([] : List Packet)
          from rfl] at hq
        exact absurd hq (by simp)
      have hred : drainLoopN (n + 1) s = drainLoopN n (dequeueResult s p rest) := by
        rw [drainLoopN]
        rw [show custom_dequeue s = (some p, dequeueResult s p rest) from by
          simp only [custom_dequeue]; rw [hq]]
      obtain ⟨hf, hct, hcf, hlen2, hdims⟩ := dequeueResult_frame s p rest
      have hself : flowAt (dequeueResult s p rest) s.cur_tin s.cur_flow =
          { (s.tins.getD s.cur_tin default).flows.getD s.cur_flow default with
            queue := rest } := by
        unfold flowAt
        rw [show (dequeueResult s p rest).tins =
            setNth { s.tins.getD s.cur_tin default with
              flows := setNth { (s.tins.getD s.cur_tin default).flows.getD
                  s.cur_flow default with queue := rest } s.cur_flow
                (s.tins.getD s.cur_tin default).flows
              backlogs := setNth (sub32 ((s.tins.getD s.cur_tin
                  default).backlogs.getD s.cur_flow 0) p.len) s.cur_flow
                (s.tins.getD s.cur_tin default).backlogs
              tin_backlog := sub32 (s.tins.getD s.cur_tin default).tin_backlog
                p.len }
            s.cur_tin s.tins from rfl]
        rw [getD_setNth_self _ _ _ _ ht]
        show (setNth _ s.cur_flow _).getD s.cur_flow default = _
        rw [getD_setNth_self _ _ _ _ hi]
      have hfl : (flowAt (dequeueResult s p rest) (dequeueResult s p
          rest).cur_tin (dequeueResult s p rest).cur_flow).queue.length ≤ n := by
        rw [hct, hcf, hself]
        have hq1 : (flowAt s s.cur_tin s.cur_flow).queue.length =
            rest.length + 1 := by
          unfold flowAt
          rw [hq]
          rfl
        show rest.length ≤ n
        omega
      obtain ⟨ih1, ih2, ih3, ih4, ih5, ih6⟩ := ih (dequeueResult s p rest) hfl
      rw [hred]
      refine ⟨?_, by rw [ih2, hct], by rw [ih3, hcf], ?_, by rw [ih5, hlen2],
        ?_⟩
      · rw [show s.cur_tin = (dequeueResult s p rest).cur_tin from hct.symm,
          show s.cur_flow = (dequeueResult s p rest).cur_flow from hcf.symm,
          ih1]
      · intro t i hne
        rw [ih4 t i (by rw [hct, hcf]; exact hne), hf t i hne]
      · intro t
        exact ⟨(ih6 t).1.trans (hdims t).1, (ih6 t).2.trans (hdims t).2⟩

/-- The flow loop of cake_clear_tin empties flows 0..n-1 of the cursor tin
and touches nothing else. -/
theorem clearFlows_spec (s : cake_sched_data) :
    ∀ n : Nat,
    (∀ i, i < n → (flowAt (clearFlows s n) s.cur_tin i).queue = []) ∧
    (clearFlows s n).cur_tin = s.cur_tin ∧
    (∀ t i, ¬(t = s.cur_tin ∧ i < n) →
      flowAt (clearFlows s n) t i = flowAt s t i) ∧
    (clearFlows s n).tins.length = s.tins.length ∧
    (∀ t, ((clearFlows s n).tins.getD t default).flows.length =
      (s.tins.getD t default).flows.length ∧
      ((clearFlows s n).tins.getD t default).flows_cnt =
      (s.tins.getD t default).flows_cnt) := by
  intro n
  induction n with
  | zero =>
    exact ⟨fun i hi => absurd hi (by omega), rfl, fun _ _ _ => rfl, rfl,
      fun _ => ⟨rfl, rfl⟩⟩
  | succ n ih =>
    obtain ⟨ih1, ih2, ih3, ih4, ih5⟩ := ih
    have hrw : clearFlows s (n + 1) =
        drainLoopN (((clearFlows s n).tins.getD (clearFlows s n).cur_tin
          default).flows.getD n default).queue.length
        { clearFlows s n with cur_flow := n } := rfl
    obtain ⟨d1, d2, d3, d4, d5, d6⟩ :=
      drainLoopN_spec (((clearFlows s n).tins.getD (clearFlows s n).cur_tin
          default).flows.getD n default).queue.length
        { clearFlows s n with cur_flow := n } (Nat.le_refl _)
    rw [hrw]
    refine ⟨?_, d2.trans ih2, ?_, d5.trans ih4, ?_⟩
    · intro i hi
      by_cases hin : i = n
      · rw [hin, ← ih2]
        exact d1
      · have hne : ¬(s.cur_tin = ({ clearFlows s n with cur_flow := n } :
            cake_sched_data).cur_tin ∧ i = ({ clearFlows s n with
            cur_flow := n } : cake_sched_data).cur_flow) := by
          intro hc
          exact hin hc.2
        rw [d4 s.cur_tin i hne]
        exact ih1 i (by omega)
    · intro t i hne
      have hne2 : ¬(t = ({ clearFlows s n with cur_flow := n } :
          cake_sched_data).cur_tin ∧ i = ({ clearFlows s n with
          cur_flow := n } : cake_sched_data).cur_flow) := by
        intro hc
        have : t = s.cur_tin := by
          have := hc.1
          show t = s.cur_tin
          rw [← ih2]
          exact this
        exact hne ⟨this, by
          have : i = n := hc.2
          omega⟩
      rw [d4 t i hne2]
      exact ih3 t i (fun hc => hne ⟨hc.1, by omega⟩)
    · intro t
      exact ⟨(d6 t).1.trans (ih5 t).1, (d6 t).2.trans (ih5 t).2⟩

/-- cake_clear_tin empties every flow of the selected tin (up to its
flows_cnt) and leaves the other tins' flows and all dimensions alone. -/
theorem clear_tin_spec (s : cake_sched_data) (tin : Nat) :
    (∀ i, i < (s.tins.getD tin default).flows_cnt →
      (flowAt (cake_clear_tin s tin) tin i).queue = []) ∧
    (∀ t i, t ≠ tin → flowAt (cake_clear_tin s tin) t i = flowAt s t i) ∧
    (cake_clear_tin s tin).tins.length = s.tins.length ∧
    (∀ t, ((cake_clear_tin s tin).tins.getD t default).flows.length =
      (s.tins.getD t default).flows.length ∧
      ((cake_clear_tin s tin).tins.getD t default).flows_cnt =
      (s.tins.getD t default).flows_cnt) := by
  obtain ⟨c1, c2, c3, c4, c5⟩ := clearFlows_spec { s with cur_tin := tin }
    ((s.tins.getD tin default).flows_cnt)
  refine ⟨?_, ?_, c4, c5⟩
  · intro i hi
    exact c1 i hi
  · intro t i htt
    exact c3 t i (fun hc => htt hc.1)

/-- Clearing tins 0..n-1 in order empties all their flows and leaves tins
at index ≥ n untouched. -/
theorem resetTins_spec (s : cake_sched_data) :
    ∀ n : Nat,
    (∀ t, t < n → ∀ i, i < (s.tins.getD t default).flows_cnt →
      (flowAt (resetTins s n) t i).queue = []) ∧
    (∀ t i, n ≤ t → flowAt (resetTins s n) t i = flowAt s t i) ∧
    (resetTins s n).tins.length = s.tins.length ∧
    (∀ t, ((resetTins s n).tins.getD t default).flows.length =
      (s.tins.getD t default).flows.length ∧
      ((resetTins s n).tins.getD t default).flows_cnt =
      (s.tins.getD t default).flows_cnt) := by
  intro n
  induction n with
  | zero =>
    exact ⟨fun t ht => absurd ht (by omega), fun _ _ _ => rfl, rfl,
      fun _ => ⟨rfl, rfl⟩⟩
  | succ n ih =>
    obtain ⟨ih1, ih2, ih3, ih4⟩ := ih
    obtain ⟨c1, c2, c3, c4⟩ := clear_tin_spec (resetTins s n) n
    refine ⟨?_, ?_, c3.trans ih3, ?_⟩
    · intro t ht i hi
      by_cases htn : t = n
      · subst htn
        show (flowAt (cake_clear_tin (resetTins s t) t) t i).queue = []
        exact c1 i (by rw [(ih4 t).2]; exact hi)
      · show (flowAt (cake_clear_tin (resetTins s n) n) t i).queue = []
        rw [c2 t i htn]
        exact ih1 t (by omega) i hi
    · intro t i ht
      show flowAt (cake_clear_tin (resetTins s n) n) t i = flowAt s t i
      rw [c2 t i (by omega)]
      exact ih2 t i (by omega)
    · intro t
      exact ⟨(c4 t).1.trans (ih4 t).1, (c4 t).2.trans (ih4 t).2⟩

/-- cake_reset empties every flow of every tin, up to each tin's
flows_cnt. -/
theorem cake_reset_empties (s : cake_sched_data) (t : Nat) (ht : t < 8)
    (i : Nat) (hi : i < (s.tins.getD t default).flows_cnt) :
    (flowAt (cake_reset s) t i).queue = [] :=
  (resetTins_spec s 8).1 t ht i hi

/-! ## Flow-list and deficit preservation through enqueue's drop loop -/

/-- The stale-shaper refresh never touches flow lists, deficits or any
other core tin state. -/
theorem touch_core (s : cake_sched_data) (now t : Nat) :
    (cake_enqueue_touch s now t).tins.map tinCore = s.tins.map tinCore ∧
    (cake_enqueue_touch s now t).tins.length = s.tins.length := by
  unfold cake_enqueue_touch
  by_cases hb : (s.tins.getD t default).tin_backlog = 0
  · rw [if_pos hb]
    by_cases hn : (s.tins.getD t default).tin_time_next_packet < now
    · rw [if_pos hn]
      exact ⟨map_setNth_eq tinCore s.tins t _ default rfl,
        length_setNth _ _ _⟩
    · rw [if_neg hn]
      rw [setNth_getD_self s.tins t default]
      exact ⟨rfl, rfl⟩
  · rw [if_neg hb]
    exact ⟨rfl, rfl⟩

/-- Tins that agree after blanking the shaper clock also agree on their
flow-list state. -/
theorem map_tinLists_of_core {l1 l2 : List cake_tin_data}
    (h : l1.map tinCore = l2.map tinCore) :
    l1.map tinLists = l2.map tinLists := by
  have h2 := congrArg (List.map tinLists) h
  rw [List.map_map, List.map_map] at h2
  exact h2

/-- Components of an equality of tin list states. -/
theorem tinLists_components {b1 b2 : cake_tin_data}
    (h : tinLists b1 = tinLists b2) :
    b1.new_flows = b2.new_flows ∧ b1.old_flows = b2.old_flows ∧
    b1.quantum = b2.quantum ∧
    (∀ i, (b1.flows.getD i default).deficit =
      (b2.flows.getD i default).deficit) ∧
    b1.flows.length = b2.flows.length := by
  have h1 : b1.new_flows = b2.new_flows := congrArg (fun x => x.1) h
  have h2 : b1.old_flows = b2.old_flows := congrArg (fun x => x.2.1) h
  have h3 : b1.quantum = b2.quantum := congrArg (fun x => x.2.2.1) h
  have h4 : b1.flows.map cake_flow.deficit = b2.flows.map cake_flow.deficit :=
    congrArg (fun x => x.2.2.2) h
  have h5 : b1.flows.length = b2.flows.length := by
    have := congrArg List.length h4
    simpa using this
  exact ⟨h1, h2, h3, fun i => map_eq_getD h4 h5 i default, h5⟩

/-- Inserting into a flow that is on neither list appends it to the tail of
new_flows and refreshes its deficit to one tin quantum. -/
theorem tin_insert_detached (b : cake_tin_data) (p : Packet) (i : Nat)
    (hi : i < b.flows.length)
    (hnl : ¬(i ∈ b.new_flows ∨ i ∈ b.old_flows)) :
    (tin_insert b p i).new_flows = b.new_flows ++ [i] ∧
    ((tin_insert b p i).flows.getD i default).deficit = (b.quantum : Int) := by
  simp only [tin_insert]
  rw [if_neg hnl]
  refine ⟨rfl, ?_⟩
  rw [getD_setNth_self _ _ _ _ (by rw [length_setNth]; exact hi)]

/-- cake_drop never touches flow lists, quanta or DRR deficits. -/
theorem dropResult_tinLists (s : cake_sched_data) (p : Packet)
    (rest : List Packet) :
    (dropResult s p rest).tins.map tinLists = s.tins.map tinLists ∧
    (dropResult s p rest).tins.length = s.tins.length := by
  constructor
  · refine map_setNth_eq tinLists s.tins (dropScan s).2.2 _ default ?_
    exact tinLists_set_flow (s.tins.getD (dropScan s).2.2 default) _
      (dropScan s).2.1
      { (s.tins.getD (dropScan s).2.2 default).flows.getD (dropScan s).2.1
          default with
        queue := rest
        dropped := add32 ((s.tins.getD (dropScan s).2.2 default).flows.getD
          (dropScan s).2.1 default).dropped 1 }
      rfl rfl rfl rfl rfl
  · exact length_setNth _ _ _

/-- The overlimit drop loop preserves flow lists, quanta and deficits. -/
theorem dropLoop_tinLists (fuel : Nat) :
    ∀ (s s2 : cake_sched_data) (n : Nat), dropLoop fuel s = some (s2, n) →
    s2.tins.map tinLists = s.tins.map tinLists ∧
    s2.tins.length = s.tins.length := by
  induction fuel with
  | zero =>
    intro s s2 n h
    rw [dropLoop] at h
    by_cases hle : s.buffer_used ≤ s.buffer_limit
    · rw [if_pos hle] at h
      have hs : s = s2 := congrArg Prod.fst (Option.some.inj h)
      rw [← hs]
      exact ⟨rfl, rfl⟩
    · rw [if_neg hle] at h
      exact absurd h (by simp)
  | succ fuel ih =>
    intro s s2 n h
    rw [dropLoop] at h
    by_cases hle : s.buffer_used ≤ s.buffer_limit
    · rw [if_pos hle] at h
      have hs : s = s2 := congrArg Prod.fst (Option.some.inj h)
      rw [← hs]
      exact ⟨rfl, rfl⟩
    · rw [if_neg hle] at h
      rcases hd : cake_drop s with _ | r
      · rw [hd] at h
        exact absurd h (by simp)
      · rw [hd] at h
        simp only [Option.some_bind] at h
        rcases hl : dropLoop fuel r.1 with _ | r2
        · rw [hl] at h
          exact absurd h (by simp)
        · rw [hl] at h
          simp only [Option.map_some'] at h
          have h2 : r2.1 = s2 := congrArg Prod.fst (Option.some.inj h)
          obtain ⟨p, rest, hq, hres⟩ := cake_drop_inv s r.1 r.2 (by rw [hd])
          obtain ⟨m1, m2⟩ := ih r.1 r2.1 r2.2 hl
          obtain ⟨d1, d2⟩ := dropResult_tinLists s p rest
          constructor
          · rw [← h2, m1, hres, d1]
          · rw [← h2, m2, hres, d2]

/-! ## The shaper charge loop of cake_dequeue -/

theorem chargeTins_length (len cur : Nat) :
    ∀ (l : List cake_tin_data) (k : Nat),
    (chargeTins len cur l k).length = l.length := by
  intro l
  induction l with
  | nil => intro k; rfl
  | cons b bs ih =>
    intro k
    show (chargeTins len cur (b :: bs) k).length = bs.length + 1
    rw [chargeTins]
    show (chargeTins len cur bs (k + 1)).length + 1 = bs.length + 1
    rw [ih (k + 1)]

/-- Pointwise description of the charge loop: the tin at offset j from the
head (absolute index k + j) is charged exactly when k + j ≤ cur. -/
theorem chargeTins_getD (len cur : Nat) :
    ∀ (l : List cake_tin_data) (k j : Nat), j < l.length →
    (chargeTins len cur l k).getD j default =
      (if k + j ≤ cur then
        { l.getD j default with
          tin_time_next_packet :=
            add64 (l.getD j default).tin_time_next_packet
              ((len * (l.getD j default).tin_rate_ns) >>>
                (l.getD j default).tin_rate_shft) }
       else l.getD j default) := by
  intro l
  induction l with
  | nil =>
    intro k j hj
    exact absurd hj (by simp)
  | cons b bs ih =>
    intro k j hj
    cases j with
    | zero =>
      rw [chargeTins]
      show (if k ≤ cur then _ else b) = _
      rw [Nat.add_zero]
      by_cases hk : k ≤ cur
      · rw [if_pos hk, if_pos hk]
        rfl
      · rw [if_neg hk, if_neg hk]
        rfl
    | succ j =>
      rw [chargeTins]
      show (chargeTins len cur bs (k + 1)).getD j default = _
      have harith : k + (j + 1) = (k + 1) + j := by omega
      rw [harith]
      have hj2 : j < bs.length := by
        have : j + 1 < bs.length + 1 := hj
        omega
      rw [ih (k + 1) j hj2]
      rfl

/-- The charge applied by cake_dequeue after emitting a packet of effective
length len: every tin of index at most cur_tin has its shaper clock advanced
by its own transmission time of len (mod 2^64), every higher tin's clock is
untouched, and the global clock advances by the global transmission time. -/
theorem cake_charge_clocks (s : cake_sched_data) (len : Nat) (j : Nat)
    (hj : j < s.tins.length) :
    (j ≤ s.cur_tin →
      ((cake_charge s len).tins.getD j default).tin_time_next_packet =
        add64 ((s.tins.getD j default)).tin_time_next_packet
          ((len * (s.tins.getD j default).tin_rate_ns) >>>
            (s.tins.getD j default).tin_rate_shft)) ∧
    (s.cur_tin < j →
      (cake_charge s len).tins.getD j default = s.tins.getD j default) ∧
    (cake_charge s len).time_next_packet =
      add64 s.time_next_packet ((len * s.rate_ns) >>> s.rate_shft) := by
  obtain ⟨B, hB, hB1, hB2, hB3⟩ :
      ∃ B : cake_tin_data,
        (cake_charge s len).tins =
          chargeTins len s.cur_tin (setNth B s.cur_tin s.tins) 0 ∧
        B.tin_time_next_packet =
          (s.tins.getD s.cur_tin default).tin_time_next_packet ∧
        B.tin_rate_ns = (s.tins.getD s.cur_tin default).tin_rate_ns ∧
        B.tin_rate_shft = (s.tins.getD s.cur_tin default).tin_rate_shft :=
    ⟨_, rfl, rfl, rfl, rfl⟩
  have hlen1 : j < (setNth B s.cur_tin s.tins).length := by
    rw [length_setNth]
    exact hj
  have hfields :
      ((setNth B s.cur_tin s.tins).getD j default).tin_time_next_packet =
        (s.tins.getD j default).tin_time_next_packet ∧
      ((setNth B s.cur_tin s.tins).getD j default).tin_rate_ns =
        (s.tins.getD j default).tin_rate_ns ∧
      ((setNth B s.cur_tin s.tins).getD j default).tin_rate_shft =
        (s.tins.getD j default).tin_rate_shft := by
    by_cases hjc : j = s.cur_tin
    · rw [hjc]
      by_cases hcl : s.cur_tin < s.tins.length
      · rw [getD_setNth_self _ _ _ _ hcl]
        exact ⟨hB1, hB2, hB3⟩
      · rw [setNth_ge _ _ _ (by omega)]
        exact ⟨rfl, rfl, rfl⟩
    · rw [getD_setNth_ne _ _ _ _ _ hjc]
      exact ⟨rfl, rfl, rfl⟩
  refine ⟨?_, ?_, rfl⟩
  · intro hjcur
    rw [hB, chargeTins_getD len s.cur_tin (setNth B s.cur_tin s.tins) 0 j
      hlen1, if_pos (by omega : 0 + j ≤ s.cur_tin)]
    rw [hfields.1, hfields.2.1, hfields.2.2]
  · intro hjcur
    rw [hB, chargeTins_getD len s.cur_tin (setNth B s.cur_tin s.tins) 0 j
      hlen1, if_neg (by omega : ¬0 + j ≤ s.cur_tin),
      getD_setNth_ne _ _ _ _ _ (by omega : j ≠ s.cur_tin)]

/-! ## The rate normalisation of cake_set_rate -/

/-- The while (rate_ns >> 32) loop: provided the starting value fits in
shft extra bits, the result fits in 32 bits, the shift only decreases, and
the result is the start right-shifted by the number of iterations. -/
theorem rateNormalize_spec :
    ∀ (ns shft : Nat), ns < 2 ^ shft * M32 →
    (rateNormalize ns shft).1 < M32 ∧
    (rateNormalize ns shft).2 ≤ shft ∧
    (rateNormalize ns shft).1 =
      ns >>> (shft - (rateNormalize ns shft).2) := by
  intro ns
  induction ns using Nat.strong_induction_on with
  | _ ns ih =>
    intro shft hb
    rw [rateNormalize]
    by_cases h : M32 ≤ ns
    · rw [dif_pos h]
      have hs1 : 1 ≤ shft := by
        by_contra hc
        have h0 : shft = 0 := by omega
        rw [h0] at hb
        simp only [pow_zero, one_mul] at hb
        omega
      have hpow : 2 ^ shft = 2 ^ (shft - 1) * 2 := by
        conv_lhs => rw [show shft = (shft - 1) + 1 from by omega]
        rw [pow_succ]
      have hb2 : ns / 2 < 2 ^ (shft - 1) * M32 := by
        have hb3 : ns < 2 ^ (shft - 1) * M32 * 2 := by
          calc ns < 2 ^ shft * M32 := hb
            _ = 2 ^ (shft - 1) * M32 * 2 := by rw [hpow]; ring
        omega
      obtain ⟨i1, i2, i3⟩ := ih (ns / 2)
        (Nat.div_lt_self (by simp only [M32] at h; omega) (by omega))
        (shft - 1) hb2
      refine ⟨i1, by omega, ?_⟩
      rw [i3, Nat.shiftRight_eq_div_pow, Nat.shiftRight_eq_div_pow,
        Nat.div_div_eq_div_mul,
        show shft - (rateNormalize (ns / 2) (shft - 1)).2 =
          ((shft - 1) - (rateNormalize (ns / 2) (shft - 1)).2) + 1 from by
            omega,
        pow_succ, Nat.mul_comm]
    · rw [dif_neg h]
      refine ⟨by omega, Nat.le_refl _, ?_⟩
      rw [Nat.sub_self, Nat.shiftRight_zero]

/-! ## interval and target through cake_change and cake_reconfigure -/

theorem custom_dequeue_it (s : cake_sched_data) :
    (custom_dequeue s).2.interval = s.interval ∧
    (custom_dequeue s).2.target = s.target := by
  have h := custom_dequeue_skel s
  exact ⟨congrArg (fun x => x.2.2.2.1) h, congrArg (fun x => x.2.2.2.2) h⟩

theorem clear_tin_it (s : cake_sched_data) (t : Nat) :
    (cake_clear_tin s t).interval = s.interval ∧
    (cake_clear_tin s t).target = s.target := by
  have h := clear_tin_proj (fun x => (x.interval, x.target))
    (fun s2 => by
      show ((custom_dequeue s2).2.interval, (custom_dequeue s2).2.target) =
        (s2.interval, s2.target)
      rw [(custom_dequeue_it s2).1, (custom_dequeue_it s2).2])
    (fun _ _ => rfl) (fun _ _ => rfl) s t
  exact ⟨congrArg (fun x => x.1) h, congrArg (fun x => x.2) h⟩

theorem config_progression_it (s : cake_sched_data) :
    (cake_config_progression s).interval = s.interval ∧
    (cake_config_progression s).target = s.target := by
  have h := foldl_preserve
    (fun (acc : cake_sched_data × Nat × Nat × Nat) =>
      acc.1.interval = s.interval ∧ acc.1.target = s.target)
    (fun acc i =>
      (({ acc.1 with
          tins := setNth
            { cake_set_rate (acc.1.tins.getD i default) acc.2.1 with
              tin_quantum_prio := max 1 (acc.2.2.1 % M16)
              tin_quantum_band := max 1 (acc.2.2.2 % M16) } i
            acc.1.tins } : cake_sched_data),
        acc.2.1 * 7 % M64 >>> 3, acc.2.2.1 * 3 % M32 >>> 1,
        acc.2.2.2 * 7 % M32 >>> 3))
    (List.range 8) (fun b hb a _ => hb) (s, s.rate_bps, 256, 256) ⟨rfl, rfl⟩
  exact h

theorem clear_unused_it (s : cake_sched_data) :
    (cake_clear_unused s).interval = s.interval ∧
    (cake_clear_unused s).target = s.target := by
  unfold cake_clear_unused
  refine foldl_preserve
    (fun x => x.interval = s.interval ∧ x.target = s.target)
    (fun s c => if s.tin_cnt ≤ c then cake_clear_tin s c else s)
    (List.range 8) ?_ s ⟨rfl, rfl⟩
  intro b hb a _
  by_cases hc : b.tin_cnt ≤ a
  · simp only [if_pos hc]
    exact ⟨(clear_tin_it b a).1.trans hb.1, (clear_tin_it b a).2.trans hb.2⟩
  · simp only [if_neg hc]
    exact hb

theorem config_dispatch_it (s : cake_sched_data) :
    (cake_config_dispatch s).interval = s.interval ∧
    (cake_config_dispatch s).target = s.target := by
  unfold cake_config_dispatch
  split_ifs
  · exact config_progression_it _
  · exact config_progression_it _
  · exact ⟨rfl, rfl⟩
  · exact ⟨rfl, rfl⟩

/-- cake_reconfigure never touches the CoDel interval or target. -/
theorem reconfigure_it (s : cake_sched_data) (mtu : Nat) :
    (cake_reconfigure s mtu).interval = s.interval ∧
    (cake_reconfigure s mtu).target = s.target := by
  have h1 : (cake_reconfigure s mtu).interval =
      (cake_clear_unused (cake_config_dispatch s)).interval := rfl
  have h2 : (cake_reconfigure s mtu).target =
      (cake_clear_unused (cake_config_dispatch s)).target := rfl
  rw [h1, h2, (clear_unused_it _).1, (clear_unused_it _).2]
  exact config_dispatch_it s

theorem change_rate_it (s : cake_sched_data) (o : cake_opts) :
    (change_rate s o).interval = s.interval ∧
    (change_rate s o).target = s.target := by
  unfold change_rate
  rcases o.base_rate with _ | v
  · exact ⟨rfl, rfl⟩
  · exact ⟨rfl, rfl⟩

theorem change_diffserv_it (s : cake_sched_data) (o : cake_opts) :
    (change_diffserv s o).interval = s.interval ∧
    (change_diffserv s o).target = s.target := by
  unfold change_diffserv
  rcases o.diffserv_mode with _ | v
  · exact ⟨rfl, rfl⟩
  · exact ⟨rfl, rfl⟩

theorem change_atm_it (s : cake_sched_data) (o : cake_opts) :
    (change_atm s o).interval = s.interval ∧
    (change_atm s o).target = s.target := by
  unfold change_atm
  rcases o.atm with _ | v
  · exact ⟨rfl, rfl⟩
  · by_cases hv : v ≠ 0 <;> simp [hv]

theorem change_wash_it (s : cake_sched_data) (o : cake_opts) :
    (change_wash s o).interval = s.interval ∧
    (change_wash s o).target = s.target := by
  unfold change_wash
  rcases o.wash with _ | v
  · exact ⟨rfl, rfl⟩
  · by_cases hv : v ≠ 0 <;> simp [hv]

theorem change_flow_mode_it (s : cake_sched_data) (o : cake_opts) :
    (change_flow_mode s o).interval = s.interval ∧
    (change_flow_mode s o).target = s.target := by
  unfold change_flow_mode
  rcases o.flow_mode with _ | v
  · exact ⟨rfl, rfl⟩
  · exact ⟨rfl, rfl⟩

theorem change_overhead_it (s : cake_sched_data) (o : cake_opts) :
    (change_overhead s o).interval = s.interval ∧
    (change_overhead s o).target = s.target := by
  unfold change_overhead
  rcases o.overhead with _ | v
  · exact ⟨rfl, rfl⟩
  · exact ⟨rfl, rfl⟩

theorem change_autorate_it (s : cake_sched_data) (o : cake_opts) :
    (change_autorate s o).interval = s.interval ∧
    (change_autorate s o).target = s.target := by
  unfold change_autorate
  rcases o.autorate with _ | v
  · exact ⟨rfl, rfl⟩
  · by_cases hv : v ≠ 0 <;> simp [hv]

theorem change_memory_it (s : cake_sched_data) (o : cake_opts) :
    (change_memory s o).interval = s.interval ∧
    (change_memory s o).target = s.target := by
  unfold change_memory
  rcases o.memory with _ | v
  · exact ⟨rfl, rfl⟩
  · exact ⟨rfl, rfl⟩

theorem change_rtt_it (s : cake_sched_data) (o : cake_opts) :
    (change_rtt s o).interval =
      (match o.rtt with
       | some v => if v = 0 then 1 else v
       | none => s.interval) ∧
    (change_rtt s o).target = s.target := by
  unfold change_rtt
  rcases o.rtt with _ | v
  · exact ⟨rfl, rfl⟩
  · exact ⟨rfl, rfl⟩

theorem change_target_it (s : cake_sched_data) (o : cake_opts) :
    (change_target s o).target =
      (match o.target with
       | some v => if v = 0 then 1 else v
       | none => s.target) ∧
    (change_target s o).interval = s.interval := by
  unfold change_target
  rcases o.target with _ | v
  · exact ⟨rfl, rfl⟩
  · exact ⟨rfl, rfl⟩

/-- Exactly how cake_change determines the stored interval and target: the
rtt/target attributes with zero coerced to one, or the previous values when
the attribute is absent. -/
theorem change_it (s : cake_sched_data) (o : cake_opts) (mtu : Nat) :
    (cake_change s o mtu).interval =
      (match o.rtt with
       | some v => if v = 0 then 1 else v
       | none => s.interval) ∧
    (cake_change s o mtu).target =
      (match o.target with
       | some v => if v = 0 then 1 else v
       | none => s.target) := by
  obtain ⟨p1, p2⟩ := change_rate_it s o
  obtain ⟨p3, p4⟩ := change_diffserv_it (change_rate s o) o
  obtain ⟨p5, p6⟩ := change_atm_it (change_diffserv (change_rate s o) o) o
  obtain ⟨p7, p8⟩ := change_wash_it
    (change_atm (change_diffserv (change_rate s o) o) o) o
  obtain ⟨p9, p10⟩ := change_flow_mode_it
    (change_wash (change_atm (change_diffserv (change_rate s o) o) o) o) o
  obtain ⟨p11, p12⟩ := change_overhead_it
    (change_flow_mode (change_wash (change_atm (change_diffserv
      (change_rate s o) o) o) o) o) o
  obtain ⟨q1, q2⟩ := change_rtt_it
    (change_overhead (change_flow_mode (change_wash (change_atm
      (change_diffserv (change_rate s o) o) o) o) o) o) o
  obtain ⟨t1, t2⟩ := change_target_it
    (change_rtt (change_overhead (change_flow_mode (change_wash (change_atm
      (change_diffserv (change_rate s o) o) o) o) o) o) o) o
  obtain ⟨a1, a2⟩ := change_autorate_it
    (change_target (change_rtt (change_overhead (change_flow_mode
      (change_wash (change_atm (change_diffserv (change_rate s o) o) o) o)
      o) o) o) o) o
  obtain ⟨m1, m2⟩ := change_memory_it
    (change_autorate (change_target (change_rtt (change_overhead
      (change_flow_mode (change_wash (change_atm (change_diffserv
      (change_rate s o) o) o) o) o) o) o) o) o) o
  obtain ⟨r1, r2⟩ := reconfigure_it
    (change_memory (change_autorate (change_target (change_rtt
      (change_overhead (change_flow_mode (change_wash (change_atm
      (change_diffserv (change_rate s o) o) o) o) o) o) o) o) o) o) mtu
  constructor
  · have hchain : (cake_change s o mtu).interval =
        (change_rtt (change_overhead (change_flow_mode (change_wash
          (change_atm (change_diffserv (change_rate s o) o) o) o) o) o)
          o).interval :=
      r1.trans (m1.trans (a1.trans t2))
    rw [hchain, q1]
    rcases o.rtt with _ | v
    · show (change_overhead (change_flow_mode (change_wash (change_atm
        (change_diffserv (change_rate s o) o) o) o) o) o).interval =
        s.interval
      rw [p11, p9, p7, p5, p3, p1]
    · rfl
  · have hchain : (cake_change s o mtu).target =
        (change_target (change_rtt (change_overhead (change_flow_mode
          (change_wash (change_atm (change_diffserv (change_rate s o) o) o)
          o) o) o) o) o).target :=
      r2.trans (m2.trans a2)
    rw [hchain, t1]
    rcases o.target with _ | v
    · show (change_rtt (change_overhead (change_flow_mode (change_wash
        (change_atm (change_diffserv (change_rate s o) o) o) o) o) o)
        o).target = s.target
      rw [q2, p12, p10, p8, p6, p4, p2]
    · rfl

/-! # Claim theorems -/

/-- C1 (amended): in the tin-selection loop of cake_dequeue, a tin with
non-positive tin_deficit is credited tin_quantum_band when its
tin_time_next_packet is in the future relative to now, and tin_quantum_prio
otherwise — the opposite pairing of the one claimed. -/
theorem claim_C1 (s : cake_sched_data) (now : Nat)
    (ht : s.cur_tin < s.tins.length)
    (hd : (s.tins.getD s.cur_tin default).tin_deficit ≤ 0) :
    (now < (s.tins.getD s.cur_tin default).tin_time_next_packet →
      ((cake_tin_skip_step s now).tins.getD s.cur_tin default).tin_deficit =
        (s.tins.getD s.cur_tin default).tin_deficit +
          ((s.tins.getD s.cur_tin default).tin_quantum_band : Int)) ∧
    (¬ now < (s.tins.getD s.cur_tin default).tin_time_next_packet →
      ((cake_tin_skip_step s now).tins.getD s.cur_tin default).tin_deficit =
        (s.tins.getD s.cur_tin default).tin_deficit +
          ((s.tins.getD s.cur_tin default).tin_quantum_prio : Int)) := by
  have htins : (cake_tin_skip_step s now).tins =
      setNth (cake_tin_credit (s.tins.getD s.cur_tin default) now)
        s.cur_tin s.tins := by
    simp only [cake_tin_skip_step]
    by_cases hcc : s.tin_cnt ≤ s.cur_tin + 1
    · rw [if_pos hcc]
    · rw [if_neg hcc]
  have hcred : ((cake_tin_skip_step s now).tins.getD s.cur_tin
      default).tin_deficit =
      (s.tins.getD s.cur_tin default).tin_deficit +
        (if now < (s.tins.getD s.cur_tin default).tin_time_next_packet
         then ((s.tins.getD s.cur_tin default).tin_quantum_band : Int)
         else ((s.tins.getD s.cur_tin default).tin_quantum_prio : Int)) := by
    rw [htins, getD_setNth_self _ _ _ _ ht]
    simp only [cake_tin_credit]
    rw [if_pos hd]
  constructor
  · intro hfut
    rw [hcred, if_pos hfut]
  · intro hfut
    rw [hcred, if_neg hfut]

/-- The hypotheses and conclusion of claim_C1 hold at the concrete state
cexC1_state with now = 0. -/
theorem claim_C1_witness :
    (cexC1_state.cur_tin < cexC1_state.tins.length ∧
     (cexC1_state.tins.getD cexC1_state.cur_tin default).tin_deficit ≤ 0) ∧
    ((0 < (cexC1_state.tins.getD cexC1_state.cur_tin
        default).tin_time_next_packet →
      ((cake_tin_skip_step cexC1_state 0).tins.getD cexC1_state.cur_tin
          default).tin_deficit =
        (cexC1_state.tins.getD cexC1_state.cur_tin default).tin_deficit +
          ((cexC1_state.tins.getD cexC1_state.cur_tin
            default).tin_quantum_band : Int)) ∧
    (¬ 0 < (cexC1_state.tins.getD cexC1_state.cur_tin
        default).tin_time_next_packet →
      ((cake_tin_skip_step cexC1_state 0).tins.getD cexC1_state.cur_tin
          default).tin_deficit =
        (cexC1_state.tins.getD cexC1_state.cur_tin default).tin_deficit +
          ((cexC1_state.tins.getD cexC1_state.cur_tin
            default).tin_quantum_prio : Int))) :=
  ⟨⟨by decide, by decide⟩, claim_C1 cexC1_state 0 (by decide) (by decide)⟩

/-- At cexC1_state (deficit 0, shaper clock 10 in the future of now = 0,
quantum_prio 3, quantum_band 7) the skipped tin is credited 7 = band, not
3 = prio, refuting the claimed pairing. -/
theorem claim_C1_cex :
    cexC1_tin.tin_deficit ≤ 0 ∧
    0 < cexC1_tin.tin_time_next_packet ∧
    cexC1_tin.tin_quantum_prio = 3 ∧ cexC1_tin.tin_quantum_band = 7 ∧
    ((cake_tin_skip_step cexC1_state 0).tins.getD 0 default).tin_deficit =
      7 := by
  decide

/-- C5: after cake_dequeue emits a packet of effective length len, every
tin of index at most cur_tin has its tin_time_next_packet advanced by
(len * tin_rate_ns) >> tin_rate_shft computed with that tin's own rate
parameters (mod 2^64), every tin of higher index is entirely unchanged, and
the global time_next_packet advances by (len * rate_ns) >> rate_shft. -/
theorem claim_C5 (s : cake_sched_data) (len : Nat) (j : Nat)
    (hj : j < s.tins.length) :
    (j ≤ s.cur_tin →
      ((cake_charge s len).tins.getD j default).tin_time_next_packet =
        add64 ((s.tins.getD j default)).tin_time_next_packet
          ((len * (s.tins.getD j default).tin_rate_ns) >>>
            (s.tins.getD j default).tin_rate_shft)) ∧
    (s.cur_tin < j →
      (cake_charge s len).tins.getD j default = s.tins.getD j default) ∧
    (cake_charge s len).time_next_packet =
      add64 s.time_next_packet ((len * s.rate_ns) >>> s.rate_shft) :=
  cake_charge_clocks s len j hj

/-- The hypothesis and conclusion of claim_C5 hold at wit_state with
len = 100 and j = 0. -/
theorem claim_C5_witness :
    (0 < wit_state.tins.length) ∧
    ((0 ≤ wit_state.cur_tin →
      ((cake_charge wit_state 100).tins.getD 0 default).tin_time_next_packet =
        add64 ((wit_state.tins.getD 0 default)).tin_time_next_packet
          ((100 * (wit_state.tins.getD 0 default).tin_rate_ns) >>>
            (wit_state.tins.getD 0 default).tin_rate_shft)) ∧
    (wit_state.cur_tin < 0 →
      (cake_charge wit_state 100).tins.getD 0 default =
        wit_state.tins.getD 0 default) ∧
    (cake_charge wit_state 100).time_next_packet =
      add64 wit_state.time_next_packet
        ((100 * wit_state.rate_ns) >>> wit_state.rate_shft)) :=
  ⟨by decide, claim_C5 wit_state 100 0 (by decide)⟩

/-- C6: cake_set_rate with a non-zero byte rate R stores a tin_rate_ns
below 2^32 equal to ((NSEC_PER_SEC << 32) / max 64 R) >> (32 - rate_shft)
with rate_shft at most 32, and a per-flow quantum of
clamp(R >> 12, 300, 1514); with R = 0 it stores tin_rate_ns = 0 (no
shaping) and the default quantum 1514. -/
theorem claim_C6 (b : cake_tin_data) (R : Nat) :
    (R ≠ 0 →
      (cake_set_rate b R).tin_rate_ns < M32 ∧
      (cake_set_rate b R).tin_rate_shft ≤ 32 ∧
      (cake_set_rate b R).tin_rate_ns =
        ((NSEC_PER_SEC <<< 32) / max 64 R) >>>
          (32 - (cake_set_rate b R).tin_rate_shft) ∧
      (cake_set_rate b R).quantum = max (min (R >>> 12) 1514) 300) ∧
    (R = 0 →
      (cake_set_rate b R).tin_rate_ns = 0 ∧
      (cake_set_rate b R).quantum = 1514) := by
  constructor
  · intro hR
    have hrw : cake_set_rate b R =
        { b with
          quantum := max (min (R >>> 12) 1514) 300
          tin_rate_bps := R % M32
          tin_rate_ns :=
            (rateNormalize ((NSEC_PER_SEC <<< 32) / max 64 R) 32).1
          tin_rate_shft :=
            (rateNormalize ((NSEC_PER_SEC <<< 32) / max 64 R) 32).2 } := by
      simp only [cake_set_rate]
      simp only [if_pos hR]
    have hb : (NSEC_PER_SEC <<< 32) / max 64 R < 2 ^ 32 * M32 := by
      have hle : (NSEC_PER_SEC <<< 32) / max 64 R ≤ NSEC_PER_SEC <<< 32 :=
        Nat.div_le_self _ _
      have hlt : NSEC_PER_SEC <<< 32 < 2 ^ 32 * M32 := by decide
      omega
    obtain ⟨n1, n2, n3⟩ :=
      rateNormalize_spec ((NSEC_PER_SEC <<< 32) / max 64 R) 32 hb
    rw [hrw]
    exact ⟨n1, n2, n3, rfl⟩
  · intro hR
    have hrw : cake_set_rate b R =
        { b with
          quantum := 1514
          tin_rate_bps := R % M32
          tin_rate_ns := 0
          tin_rate_shft := 0 } := by
      simp only [cake_set_rate]
      simp only [if_neg (fun hc : R ≠ 0 => hc hR)]
    rw [hrw]
    exact ⟨rfl, rfl⟩

/-- The hypothesis and the R ≠ 0 conclusions of claim_C6 hold at the
concrete rate 10^6 bytes per second. -/
theorem claim_C6_witness :
    ((10 ^ 6 : Nat) ≠ 0) ∧
    ((cake_set_rate (freshTin 2) (10 ^ 6)).tin_rate_ns < M32 ∧
     (cake_set_rate (freshTin 2) (10 ^ 6)).tin_rate_shft ≤ 32 ∧
     (cake_set_rate (freshTin 2) (10 ^ 6)).tin_rate_ns =
       ((NSEC_PER_SEC <<< 32) / max 64 (10 ^ 6)) >>>
         (32 - (cake_set_rate (freshTin 2) (10 ^ 6)).tin_rate_shft) ∧
     (cake_set_rate (freshTin 2) (10 ^ 6)).quantum =
       max (min ((10 ^ 6) >>> 12) 1514) 300) :=
  ⟨by decide, (claim_C6 (freshTin 2) (10 ^ 6)).1 (by decide)⟩

/-- C7: with a non-negative effective sum L + overhead that fits in u32,
cake_overhead charges L + overhead without ATM, and with ATM it charges
53 bytes per 48-byte cell, i.e. ceil((L + overhead) / 48) * 53 (the
ceiling witnessed by the bracketing clauses), provided that product also
fits in u32. -/
theorem claim_C7 (s : cake_sched_data) (L : Nat)
    (h0 : 0 ≤ (L : Int) + s.rate_overhead)
    (hfit : (L : Int) + s.rate_overhead < (M32 : Int))
    (hfit2 : ((((L : Int) + s.rate_overhead).toNat + 47) / 48) * 53 < M32) :
    (s.rate_flags &&& CAKE_FLAG_ATM = 0 →
      cake_overhead s L = ((L : Int) + s.rate_overhead).toNat) ∧
    (s.rate_flags &&& CAKE_FLAG_ATM ≠ 0 →
      cake_overhead s L =
        ((((L : Int) + s.rate_overhead).toNat + 47) / 48) * 53 ∧
      ((L : Int) + s.rate_overhead).toNat ≤
        48 * ((((L : Int) + s.rate_overhead).toNat + 47) / 48) ∧
      48 * ((((L : Int) + s.rate_overhead).toNat + 47) / 48) <
        ((L : Int) + s.rate_overhead).toNat + 48) := by
  have hm : ((L : Int) + s.rate_overhead) % ((M32 : Nat) : Int) =
      (L : Int) + s.rate_overhead := Int.emod_eq_of_lt h0 hfit
  have hdm := Nat.div_add_mod (((L : Int) + s.rate_overhead).toNat + 47) 48
  have hmod : (((L : Int) + s.rate_overhead).toNat + 47) % 48 < 48 :=
    Nat.mod_lt _ (by omega)
  constructor
  · intro hA
    simp only [cake_overhead]
    rw [if_neg (fun hc => hc hA), hm]
  · intro hA
    have hX47 : ((L : Int) + s.rate_overhead).toNat + 47 < M32 := by
      simp only [M32] at hfit2 ⊢
      omega
    refine ⟨?_, by omega, by omega⟩
    simp only [cake_overhead]
    rw [if_pos hA, hm, Nat.mod_eq_of_lt hX47, Nat.mod_eq_of_lt hfit2]

/-- The hypotheses and conclusion of claim_C7 hold at witC7_state
(overhead 24, ATM on) with L = 100. -/
theorem claim_C7_witness :
    (0 ≤ (100 : Int) + witC7_state.rate_overhead ∧
     (100 : Int) + witC7_state.rate_overhead < (M32 : Int) ∧
     ((((100 : Int) + witC7_state.rate_overhead).toNat + 47) / 48) * 53 <
       M32) ∧
    ((witC7_state.rate_flags &&& CAKE_FLAG_ATM = 0 →
      cake_overhead witC7_state 100 =
        ((100 : Int) + witC7_state.rate_overhead).toNat) ∧
    (witC7_state.rate_flags &&& CAKE_FLAG_ATM ≠ 0 →
      cake_overhead witC7_state 100 =
        ((((100 : Int) + witC7_state.rate_overhead).toNat + 47) / 48) * 53 ∧
      ((100 : Int) + witC7_state.rate_overhead).toNat ≤
        48 * ((((100 : Int) + witC7_state.rate_overhead).toNat + 47) / 48) ∧
      48 * ((((100 : Int) + witC7_state.rate_overhead).toNat + 47) / 48) <
        ((100 : Int) + witC7_state.rate_overhead).toNat + 48)) :=
  ⟨⟨by decide, by decide, by decide⟩,
    claim_C7 witC7_state 100 (by decide) (by decide) (by decide)⟩

/-- C10: cake_overhead works in u32 arithmetic: when L + overhead is
negative (overhead being at least -2^15, as any s16 value is), the charged
length wraps to L + overhead + 2^32 — at least 2^32 - 2^15, never clamped
to zero — and with ATM on this wrapped value is what enters the cell
scaling. -/
theorem claim_C10 (s : cake_sched_data) (L : Nat)
    (hneg : (L : Int) + s.rate_overhead < 0)
    (hs16 : -(2 ^ 15 : Int) ≤ s.rate_overhead) :
    (s.rate_flags &&& CAKE_FLAG_ATM = 0 →
      cake_overhead s L =
        ((L : Int) + s.rate_overhead + (M32 : Int)).toNat ∧
      M32 - 2 ^ 15 ≤ cake_overhead s L ∧ cake_overhead s L ≠ 0) ∧
    (s.rate_flags &&& CAKE_FLAG_ATM ≠ 0 →
      cake_overhead s L =
        ((((L : Int) + s.rate_overhead + (M32 : Int)).toNat + 47) % M32) /
          48 * 53 % M32) := by
  have hm : ((L : Int) + s.rate_overhead) % ((M32 : Nat) : Int) =
      (L : Int) + s.rate_overhead + ((M32 : Nat) : Int) := by
    simp only [M32]
    push_cast
    omega
  constructor
  · intro hA
    have h1 : cake_overhead s L =
        ((L : Int) + s.rate_overhead + ((M32 : Nat) : Int)).toNat := by
      simp only [cake_overhead]
      rw [if_neg (fun hc => hc hA), hm]
    refine ⟨h1, ?_, ?_⟩
    · rw [h1]
      simp only [M32]
      push_cast
      omega
    · rw [h1]
      simp only [M32]
      push_cast
      omega
  · intro hA
    simp only [cake_overhead]
    rw [if_pos hA, hm]

/-- The hypotheses and conclusion of claim_C10 hold at witC10_state
(overhead -200) with L = 100. -/
theorem claim_C10_witness :
    ((100 : Int) + witC10_state.rate_overhead < 0 ∧
     -(2 ^ 15 : Int) ≤ witC10_state.rate_overhead) ∧
    ((witC10_state.rate_flags &&& CAKE_FLAG_ATM = 0 →
      cake_overhead witC10_state 100 =
        ((100 : Int) + witC10_state.rate_overhead + (M32 : Int)).toNat ∧
      M32 - 2 ^ 15 ≤ cake_overhead witC10_state 100 ∧
      cake_overhead witC10_state 100 ≠ 0) ∧
    (witC10_state.rate_flags &&& CAKE_FLAG_ATM ≠ 0 →
      cake_overhead witC10_state 100 =
        ((((100 : Int) + witC10_state.rate_overhead + (M32 : Int)).toNat +
          47) % M32) / 48 * 53 % M32)) :=
  ⟨⟨by decide, by decide⟩,
    claim_C10 witC10_state 100 (by decide) (by decide)⟩

/-- C3: on a well-formed engine, the accounting-conservation invariant
(per-flow backlogs summing to tin_backlog for every tin, tin_backlogs
summing to the reported backlog) holds and is preserved by cake_enqueue, by
a dequeue step (custom_dequeue plus the caller-side backlog decrement), and
by cake_drop. -/
theorem claim_C3 (s : cake_sched_data) (p : Packet) (now : Nat)
    (hwf : Wf s) (hroom : Room s p) :
    AccountingOk s ∧
    (∀ s2, cake_enqueue s p now = some s2 → AccountingOk s2) ∧
    AccountingOk (cake_dequeue_one s).2 ∧
    (∀ s2 r, cake_drop s = some (s2, r) → AccountingOk s2) := by
  refine ⟨wf_accountingOk s hwf, ?_,
    wf_accountingOk _ (cake_dequeue_one_wf s hwf), ?_⟩
  · intro s2 h2
    obtain ⟨s3, h3, hwf3, _⟩ := cake_enqueue_spec s p now hwf hroom
    rw [h3] at h2
    rw [← Option.some.inj h2]
    exact wf_accountingOk _ hwf3
  · intro s2 r h2
    obtain ⟨pd, rest, hq, heq⟩ := cake_drop_inv s s2 r h2
    rw [heq]
    exact wf_accountingOk _ (dropResult_wf s pd rest hwf hq).1

/-- The hypotheses and conclusion of claim_C3 hold at wit_state and
wit_pkt. -/
theorem claim_C3_witness :
    (Wf wit_state ∧ Room wit_state wit_pkt) ∧
    (AccountingOk wit_state ∧
     (∀ s2, cake_enqueue wit_state wit_pkt 0 = some s2 → AccountingOk s2) ∧
     AccountingOk (cake_dequeue_one wit_state).2 ∧
     (∀ s2 r, cake_drop wit_state = some (s2, r) → AccountingOk s2)) :=
  ⟨⟨by decide, by decide⟩,
    claim_C3 wit_state wit_pkt 0 (by decide) (by decide)⟩

/-- C4: whenever cake_enqueue returns success the buffer is within its
limit, and on an over-limit well-formed state cake_drop head-drops one
packet from a flow whose byte backlog dominates every flow backlog in the
scheduler, preserving well-formedness and removing exactly one packet (so
repeating it drives the buffer back under its limit, which is what the
clause about enqueue's return guarantees). -/
theorem claim_C4 (s : cake_sched_data) (p : Packet) (now : Nat)
    (hwf : Wf s) :
    (∀ s2, cake_enqueue s p now = some s2 →
      s2.buffer_used ≤ s2.buffer_limit) ∧
    (s.buffer_limit < s.buffer_used →
      ∃ pd rest,
        ((s.tins.getD (dropScan s).2.2 default).flows.getD (dropScan s).2.1
          default).queue = pd :: rest ∧
        cake_drop s = some (dropResult s pd rest,
          (dropScan s).2.1 + ((dropScan s).2.2 <<< 16)) ∧
        (∀ j k, backlogAt s j k ≤
          backlogAt s (dropScan s).2.2 (dropScan s).2.1) ∧
        Wf (dropResult s pd rest) ∧
        (dropResult s pd rest).qlen + 1 = s.qlen) := by
  constructor
  · intro s2 h
    simp only [cake_enqueue] at h
    rcases Option.map_eq_some'.mp h with ⟨r, hloop, hpatch⟩
    have hle := dropLoop_le _ _ r.1 r.2 (hloop.trans rfl)
    rw [← hpatch]
    exact hle
  · intro hover
    obtain ⟨pd, rest, hq, heq, hwf2, hlim, hqlen, hmax⟩ :=
      cake_drop_spec s hwf (by omega)
    exact ⟨pd, rest, hq, heq, hmax, hwf2, hqlen⟩

/-- The hypothesis and conclusion of claim_C4 hold at the over-limit state
wit_over. -/
theorem claim_C4_witness :
    (Wf wit_over ∧ wit_over.buffer_limit < wit_over.buffer_used) ∧
    ((∀ s2, cake_enqueue wit_over pktA 0 = some s2 →
      s2.buffer_used ≤ s2.buffer_limit) ∧
    (wit_over.buffer_limit < wit_over.buffer_used →
      ∃ pd rest,
        ((wit_over.tins.getD (dropScan wit_over).2.2 default).flows.getD
          (dropScan wit_over).2.1 default).queue = pd :: rest ∧
        cake_drop wit_over = some (dropResult wit_over pd rest,
          (dropScan wit_over).2.1 + ((dropScan wit_over).2.2 <<< 16)) ∧
        (∀ j k, backlogAt wit_over j k ≤
          backlogAt wit_over (dropScan wit_over).2.2
            (dropScan wit_over).2.1) ∧
        Wf (dropResult wit_over pd rest) ∧
        (dropResult wit_over pd rest).qlen + 1 = wit_over.qlen)) :=
  ⟨⟨by decide, by decide⟩, claim_C4 wit_over pktA 0 (by decide)⟩

/-- C2 (amended): when cake_enqueue inserts a packet into a flow that is on
neither the new-flows nor the old-flows list of its tin (a detached
flowchain — not merely an empty packet subqueue), the flow is appended to
the tail of the tin's new-flows list and its deficit is set to the tin
quantum. -/
theorem claim_C2 (s : cake_sched_data) (p : Packet) (now : Nat)
    (s2 : cake_sched_data) (h : cake_enqueue s p now = some s2)
    (ht : enqTin s p < s.tins.length)
    (hi : enqIdx s p < (s.tins.getD (enqTin s p) default).flows.length)
    (hn : enqIdx s p ∉ (s.tins.getD (enqTin s p) default).new_flows)
    (ho : enqIdx s p ∉ (s.tins.getD (enqTin s p) default).old_flows) :
    (s2.tins.getD (enqTin s p) default).new_flows =
      (s.tins.getD (enqTin s p) default).new_flows ++ [enqIdx s p] ∧
    ((s2.tins.getD (enqTin s p) default).flows.getD (enqIdx s p)
      default).deficit =
      ((s.tins.getD (enqTin s p) default).quantum : Int) := by
  simp only [cake_enqueue] at h
  rcases Option.map_eq_some'.mp h with ⟨r, hloop, hpatch⟩
  obtain ⟨hcore, hlen1⟩ := touch_core s now (enqTin s p)
  have hTL1 : (cake_enqueue_touch s now (enqTin s p)).tins.map tinLists =
      s.tins.map tinLists := map_tinLists_of_core hcore
  obtain ⟨e1, e2, e3, e4, e5⟩ :=
    tinLists_components (map_eq_getD hTL1 hlen1 (enqTin s p) default)
  have hi1 : enqIdx s p < ((cake_enqueue_touch s now
      (enqTin s p)).tins.getD (enqTin s p) default).flows.length := by
    rw [e5]
    exact hi
  have hnl1 : ¬(enqIdx s p ∈ ((cake_enqueue_touch s now
      (enqTin s p)).tins.getD (enqTin s p) default).new_flows ∨
      enqIdx s p ∈ ((cake_enqueue_touch s now
      (enqTin s p)).tins.getD (enqTin s p) default).old_flows) := by
    rw [e1, e2]
    intro hc
    rcases hc with hc | hc
    · exact hn hc
    · exact ho hc
  obtain ⟨hN, hD⟩ := tin_insert_detached
    ((cake_enqueue_touch s now (enqTin s p)).tins.getD (enqTin s p) default)
    p (enqIdx s p) hi1 hnl1
  have hts2 : (cake_enqueue_insert (cake_enqueue_touch s now (enqTin s p)) p
      (enqTin s p) (enqIdx s p)).tins.getD (enqTin s p) default =
      tin_insert ((cake_enqueue_touch s now (enqTin s p)).tins.getD
        (enqTin s p) default) p (enqIdx s p) := by
    show (setNth (tin_insert _ p (enqIdx s p)) (enqTin s p)
      (cake_enqueue_touch s now (enqTin s p)).tins).getD (enqTin s p)
      default = _
    rw [getD_setNth_self _ _ _ _ (by rw [hlen1]; exact ht)]
  obtain ⟨m1, m2⟩ := dropLoop_tinLists
    (cake_enqueue_insert (cake_enqueue_touch s now (enqTin s p)) p
      (enqTin s p) (enqIdx s p)).qlen
    (cake_enqueue_insert (cake_enqueue_touch s now (enqTin s p)) p
      (enqTin s p) (enqIdx s p)) r.1 r.2 (hloop.trans rfl)
  have hbound2 : enqTin s p < r.1.tins.length := by
    rw [m2]
    show enqTin s p < (setNth _ (enqTin s p)
      (cake_enqueue_touch s now (enqTin s p)).tins).length
    rw [length_setNth, hlen1]
    exact ht
  have hTL2 : tinLists (s2.tins.getD (enqTin s p) default) =
      tinLists (r.1.tins.getD (enqTin s p) default) := by
    rw [← hpatch]
    show tinLists ((setNth _ (enqTin s p) r.1.tins).getD (enqTin s p)
      default) = _
    rw [getD_setNth_self _ _ _ _ hbound2]
    rfl
  have hfin : tinLists (s2.tins.getD (enqTin s p) default) =
      tinLists (tin_insert ((cake_enqueue_touch s now
        (enqTin s p)).tins.getD (enqTin s p) default) p (enqIdx s p)) := by
    rw [hTL2, map_eq_getD m1 m2 (enqTin s p) default, hts2]
  obtain ⟨f1, f2, f3, f4, f5⟩ := tinLists_components hfin
  constructor
  · rw [f1, hN, e1]
  · rw [f4 (enqIdx s p), hD, e3]

/-- The hypotheses and conclusion of claim_C2 hold for the concrete
enqueue of wit_pkt into the fresh state wit_state, whose flow 0 is
detached. -/
theorem claim_C2_witness :
    (enqTin wit_state wit_pkt < wit_state.tins.length ∧
     enqIdx wit_state wit_pkt <
       (wit_state.tins.getD (enqTin wit_state wit_pkt)
         default).flows.length ∧
     enqIdx wit_state wit_pkt ∉
       (wit_state.tins.getD (enqTin wit_state wit_pkt) default).new_flows ∧
     enqIdx wit_state wit_pkt ∉
       (wit_state.tins.getD (enqTin wit_state wit_pkt) default).old_flows) ∧
    ((((cake_enqueue wit_state wit_pkt 0).getD wit_state).tins.getD
        (enqTin wit_state wit_pkt) default).new_flows =
      (wit_state.tins.getD (enqTin wit_state wit_pkt) default).new_flows ++
        [enqIdx wit_state wit_pkt] ∧
    ((((cake_enqueue wit_state wit_pkt 0).getD wit_state).tins.getD
        (enqTin wit_state wit_pkt) default).flows.getD
        (enqIdx wit_state wit_pkt) default).deficit =
      ((wit_state.tins.getD (enqTin wit_state wit_pkt) default).quantum :
        Int)) :=
  ⟨⟨by decide, by decide, by decide, by decide⟩,
    claim_C2 wit_state wit_pkt 0
      ((cake_enqueue wit_state wit_pkt 0).getD wit_state) rfl
      (by decide) (by decide) (by decide) (by decide)⟩

/-- At cexC2_s2 flow 0 of tin 0 has an empty packet subqueue yet sits on
new_flows = [0, 1]; enqueueing pktC into it leaves new_flows = [0, 1]
unchanged, so a flow with an empty subqueue is not appended to the tail of
the new-flows list as claimed (only a detached flow is). -/
theorem claim_C2_cex :
    ((cexC2_s2.tins.getD 0 default).flows.getD 0 default).queue = [] ∧
    (cexC2_s2.tins.getD 0 default).new_flows = [0, 1] ∧
    enqTin cexC2_s2 pktC = 0 ∧ enqIdx cexC2_s2 pktC = 0 ∧
    (cexC2_s3.tins.getD 0 default).new_flows = [0, 1] := by
  decide

/-- A list member is a getD read at some in-range index. -/
theorem mem_exists_getD (l : List α) (a : α) (h : a ∈ l) (d : α) :
    ∃ i, i < l.length ∧ l.getD i d = a := by
  obtain ⟨n, hn⟩ := List.mem_iff_get.mp h
  exact ⟨n.1, n.2, (getD_eq_get l d n.1 n.2).trans hn⟩

/-- C8 (amended): cake_reset empties every flow's packet subqueue, but it
is not a reinitialisation — the flow lists, the per-flow DRR deficits, the
per-tin class deficits, the tin and global shaper clocks, the reported
backlog counter and the CoDel parameters all survive verbatim (so a reset
engine is observably different from a fresh one). -/
theorem claim_C8 (s : cake_sched_data) (hs : Shape s) :
    schedSkel (cake_reset s) = schedSkel s ∧
    (∀ b ∈ (cake_reset s).tins, ∀ f ∈ b.flows, f.queue = []) := by
  obtain ⟨hlen8, hfc⟩ := hs
  refine ⟨cake_reset_skel s, ?_⟩
  intro b hb f hf
  obtain ⟨hemp, hfr, hlenp, hdims⟩ := resetTins_spec s 8
  obtain ⟨t, htl, hbt⟩ := mem_exists_getD _ b hb default
  obtain ⟨i, hil, hfi⟩ := mem_exists_getD _ f hf default
  have ht8 : t < 8 := by
    have hpl : (cake_reset s).tins.length = s.tins.length := hlenp
    omega
  have hlf : b.flows.length = (s.tins.getD t default).flows.length := by
    rw [← hbt]
    exact (hdims t).1
  have hcnt : (s.tins.getD t default).flows.length =
      (s.tins.getD t default).flows_cnt :=
    hfc _ (getD_mem s.tins t default (by omega))
  have hq := cake_reset_empties s t ht8 i (by omega)
  rw [← hfi, ← hbt]
  show (flowAt (cake_reset s) t i).queue = []
  exact hq

/-- The hypothesis and conclusion of claim_C8 hold at the concrete loaded
state cexC8_base. -/
theorem claim_C8_witness :
    Shape cexC8_base ∧
    (schedSkel (cake_reset cexC8_base) = schedSkel cexC8_base ∧
     (∀ b ∈ (cake_reset cexC8_base).tins, ∀ f ∈ b.flows, f.queue = [])) :=
  ⟨by decide, claim_C8 cexC8_base (by decide)⟩

/-- Running the same two enqueues after cake_reset and on a fresh engine of
the same configuration gives different observable behaviour: the
activation order is [0, 1] versus [1, 0] and the reported backlog is 160
(100 of it stale) versus 60, even though the reset did empty every queue. -/
theorem claim_C8_cex :
    obsC8 (cexC8_run (cake_reset cexC8_base)) ≠
      obsC8 (cexC8_run (freshSched 4 1000000)) ∧
    (cake_reset cexC8_base).qstats_backlog = 100 ∧
    (∀ b ∈ (cake_reset cexC8_base).tins, ∀ f ∈ b.flows, f.queue = []) ∧
    (freshSched 4 1000000).qstats_backlog = 0 := by
  decide

/-- C9: cake_change coerces a zero rtt attribute and a zero target
attribute to 1, so starting from any state with non-zero interval and
target (as cake_init leaves them), every change keeps interval ≥ 1 and
target ≥ 1. -/
theorem claim_C9 (s : cake_sched_data) (o : cake_opts) (mtu : Nat)
    (hi : 1 ≤ s.interval) (ht : 1 ≤ s.target) :
    1 ≤ (cake_change s o mtu).interval ∧
    1 ≤ (cake_change s o mtu).target ∧
    (o.rtt = some 0 → (cake_change s o mtu).interval = 1) ∧
    (o.target = some 0 → (cake_change s o mtu).target = 1) := by
  obtain ⟨h1, h2⟩ := change_it s o mtu
  refine ⟨?_, ?_, ?_, ?_⟩
  · rcases hr : o.rtt with _ | v
    · rw [hr] at h1
      have h1a : (cake_change s o mtu).interval = s.interval := h1
      omega
    · rw [hr] at h1
      have h1a : (cake_change s o mtu).interval =
          if v = 0 then 1 else v := h1
      rw [h1a]
      split_ifs with hv
      · omega
      · omega
  · rcases hr : o.target with _ | v
    · rw [hr] at h2
      have h2a : (cake_change s o mtu).target = s.target := h2
      omega
    · rw [hr] at h2
      have h2a : (cake_change s o mtu).target =
          if v = 0 then 1 else v := h2
      rw [h2a]
      split_ifs with hv
      · omega
      · omega
  · intro hz
    rw [hz] at h1
    have h1a : (cake_change s o mtu).interval = if 0 = 0 then 1 else 0 := h1
    rw [h1a, if_pos rfl]
  · intro hz
    rw [hz] at h2
    have h2a : (cake_change s o mtu).target = if 0 = 0 then 1 else 0 := h2
    rw [h2a, if_pos rfl]

/-- The hypotheses and conclusion of claim_C9 hold at wit_state with an
attribute set carrying rtt = 0 and target = 0. -/
theorem claim_C9_witness :
    (1 ≤ wit_state.interval ∧ 1 ≤ wit_state.target) ∧
    (1 ≤ (cake_change wit_state witC9_opts 1514).interval ∧
     1 ≤ (cake_change wit_state witC9_opts 1514).target ∧
     (witC9_opts.rtt = some 0 →
       (cake_change wit_state witC9_opts 1514).interval = 1) ∧
     (witC9_opts.target = some 0 →
       (cake_change wit_state witC9_opts 1514).target = 1)) :=
  ⟨⟨by decide, by decide⟩,
    claim_C9 wit_state witC9_opts 1514 (by decide) (by decide)⟩

end Bcake
